import Mathlib

/-!
# RSA demo programs: a shallow embedding and its verification

`single.cpp` works on machine words (`BigIntT = uint64_t`, `SBigIntT = int64_t`);
`multiple.cpp` works on the multi-precision class `Integer`.

Unsigned 64-bit values are natural numbers below `W64 = 2 ^ 64`; every C++
operation that can leave that range is followed by an explicit `% W64`.
Signed 64-bit values are integers, with `wrapS` the two's-complement wrap.
The C library generator `rand()` is a stream `rand : Nat → Nat` (the value
returned by the i-th call) together with the index of the next call.
-/

namespace Single

/-- Number of values of `BigIntT` (`uint64_t`). -/
def W64 : Nat := 2 ^ 64

/-- Unsigned 64-bit subtraction `a - b`, wrapping below zero. -/
def sub64 (a b : Nat) : Nat := (a + W64 - b) % W64

/-- Two's-complement wrap of an integer into the range of `SBigIntT` (`int64_t`). -/
def wrapS (x : Int) : Int := (x + 2 ^ 63) % 2 ^ 64 - 2 ^ 63

/-- Conversion `BigIntT → SBigIntT` (argument passing in `jacobi(a, p)`). -/
def toSigned (x : Nat) : Int := wrapS (x : Int)

/-- Conversion `SBigIntT → BigIntT` (the usual arithmetic conversion in `j == l`). -/
def toUnsigned (x : Int) : Nat := (x % 2 ^ 64).toNat

/-- Loop of `robustPrimeTest`: `for (d = 2; d <= p/2; d += 1) if (p % d == 0) return false;`
started at the current `d`. `d <= p/2 < 2^63`, so `d += 1` does not wrap. -/
def robustPrimeTestLoop (p d : Nat) : Bool :=
  if d ≤ p / 2 then
    if p % d = 0 then false else robustPrimeTestLoop p (d + 1)
  else true
termination_by p / 2 + 1 - d
decreasing_by omega

/-- Trial division, `robustPrimeTest` of single.cpp. -/
def robustPrimeTest (p : Nat) : Bool := robustPrimeTestLoop p 2

/-- The zero-argument `generateRandomNumber()`: the product of three consecutive
`rand()` results in `BigIntT`. Returns the value and the index of the next call. -/
def generateRandomNumber0 (rand : Nat → Nat) (i : Nat) : Nat × Nat :=
  ((rand i % W64 * (rand (i + 1) % W64) % W64 * (rand (i + 2) % W64)) % W64, i + 3)

/-- The two-argument `generateRandomNumber(min, max)`:
`min + (generateRandomNumber() % (max - min))` in `BigIntT`. (For `max = min` the
C++ `%` is undefined; here `x % 0 = x`.) -/
def generateRandomNumber (rand : Nat → Nat) (i min max : Nat) : Nat × Nat :=
  let r := generateRandomNumber0 rand i
  ((min + r.1 % sub64 max min) % W64, r.2)

/-- Euclid, `greatestCommonDivisor` of single.cpp. -/
def greatestCommonDivisor (a b : Nat) : Nat :=
  if b = 0 then a else greatestCommonDivisor b (a % b)
termination_by b
decreasing_by exact Nat.mod_lt _ (Nat.pos_of_ne_zero (by assumption))

/-- Loop of `calculatePower` from the current `result`, `b`, `e`. -/
def calculatePowerLoop (result b e m : Nat) : Nat :=
  if e ≠ 0 then
    calculatePowerLoop (if e &&& 1 ≠ 0 then (result * b) % W64 % m else result)
      ((b * b) % W64 % m) (e >>> 1) m
  else result
termination_by e
decreasing_by
  simp only [Nat.shiftRight_eq_div_pow]; omega

/-- Square-and-multiply, `calculatePower` of single.cpp. -/
def calculatePower (b e m : Nat) : Nat := calculatePowerLoop 1 b e m

/-- Recursive `jacobi` of single.cpp on `SBigIntT`; `/` and `%` truncate towards
zero as in C++, products and differences wrap. The recursive results are in
`{-1, 0, 1}`, so the negations do not overflow. -/
def jacobi (a b : Int) : Int :=
  if a = 0 ∨ a = 1 then a
  else if a.tmod 2 = 0 then
    if ((wrapS (wrapS (b * b) - 1)).tdiv 8).tmod 2 = 0 then jacobi (a.tdiv 2) b
    else - jacobi (a.tdiv 2) b
  else if ((wrapS (wrapS (a - 1) * wrapS (b - 1))).tdiv 4).tmod 2 = 0 then jacobi (b.tmod a) a
  else - jacobi (b.tmod a) a
termination_by a.natAbs
decreasing_by
  all_goals simp_wf
  all_goals first
    | (have h0 : a.natAbs ≠ 0 := by
         intro h; simp_all
       show a.natAbs / 2 < a.natAbs
       omega)
    | (have h0 : a ≠ 0 := by
         intro h; simp_all
       have key : (b.tmod a).natAbs = b.natAbs % a.natAbs := by
         cases a <;> cases b <;> simp [Int.tmod] <;> rfl
       rw [key]
       exact Nat.mod_lt _ (Int.natAbs_pos.mpr h0))

/-- Loop of `testPrime`: `tests` remaining rounds of the Solovay-Strassen trial.
Returns the verdict and the index of the next `rand()` call. -/
def testPrimeLoop (rand : Nat → Nat) : Nat → Nat → Nat → Bool × Nat
  | 0, _, i => (true, i)
  | tests + 1, p, i =>
    let a := generateRandomNumber rand i 2 p
    if greatestCommonDivisor a.1 p = 1 then
      let l := calculatePower a.1 (sub64 p 1 / 2) p
      let j := jacobi (toSigned a.1) (toSigned p)
      if (j = -1 ∧ l = sub64 p 1) ∨ toUnsigned j = l then
        testPrimeLoop rand tests p a.2
      else (false, a.2)
    else (false, a.2)

/-- Body of one round of `testPrime` for the drawn value `a`: true when the round
falls through to the next one ("so far so good"), false when it executes
`return false`. -/
def trialPasses (p a : Nat) : Bool :=
  if greatestCommonDivisor a p = 1 then
    decide ((jacobi (toSigned a) (toSigned p) = -1 ∧
        calculatePower a (sub64 p 1 / 2) p = sub64 p 1) ∨
      toUnsigned (jacobi (toSigned a) (toSigned p)) = calculatePower a (sub64 p 1 / 2) p)
  else false

/-- Probabilistic test `testPrime` of single.cpp (`int tests = 10`). -/
def testPrime (rand : Nat → Nat) (p i : Nat) : Bool × Nat :=
  if p = 2 then (true, i) else testPrimeLoop rand 10 p i

/-- The `while (true)` loop of `generatePrime`, cut after `fuel` candidates:
`none` when no candidate was accepted within `fuel` rounds, otherwise the
returned value and the index of the next `rand()` call. -/
def generatePrime (rand : Nat → Nat) : Nat → Nat → Nat → Nat → Option (Nat × Nat)
  | 0, _, _, _ => none
  | fuel + 1, min, max, i =>
    let r := generateRandomNumber rand i min max
    let p := r.1 ||| 1
    if (p + 1) % W64 = 0 ∨ ((p + 1) % W64) &&& p = 0 then
      generatePrime rand fuel min max r.2
    else
      let t := testPrime rand p r.2
      if t.1 then some (p, t.2) else generatePrime rand fuel min max t.2

/-- Loop of `calculateInverse` from the current `u1, u3, v1, v3, odd`, with the
final selection `odd ? v - u1 : u1`. -/
def calculateInverseLoop (v u1 u3 v1 v3 : Nat) (odd : Bool) : Nat :=
  if v3 ≠ 0 then
    calculateInverseLoop v v1 v3 ((u1 + (u3 / v3 * v1) % W64) % W64) (u3 % v3) (!odd)
  else if odd then sub64 v u1 else u1
termination_by v3
decreasing_by exact Nat.mod_lt _ (Nat.pos_of_ne_zero (by assumption))

/-- Extended Euclid, `calculateInverse` of single.cpp. -/
def calculateInverse (u v : Nat) : Nat := calculateInverseLoop v 1 u 0 v false

/-- What one iteration of the loop of `calculateInverse` computes: the product
`q * v1` and the sum `u1 + w` as exact natural numbers (`w` being the 64-bit
product), and the 64-bit values of `u1` and `v1` after the iteration. -/
structure InverseIteration where
  product : Nat
  sum : Nat
  u1 : Nat
  v1 : Nat

/-- The iterations of the loop of `calculateInverse` from the current
`u1, u3, v1, v3`, in order. -/
def calculateInverseTrace (u1 u3 v1 v3 : Nat) : List InverseIteration :=
  if v3 ≠ 0 then
    { product := u3 / v3 * v1, sum := u1 + (u3 / v3 * v1) % W64, u1 := v1,
      v1 := (u1 + (u3 / v3 * v1) % W64) % W64 } ::
      calculateInverseTrace v1 v3 ((u1 + (u3 / v3 * v1) % W64) % W64) (u3 % v3)
  else []
termination_by v3
decreasing_by exact Nat.mod_lt _ (Nat.pos_of_ne_zero (by assumption))

/-- The algorithm of `calculateInverse` over unbounded numbers: no wrap in the
loop, and the final `v - u1` taken in the integers. -/
def calculateInverseExactLoop (v u1 u3 v1 v3 : Nat) (odd : Bool) : Int :=
  if v3 ≠ 0 then
    calculateInverseExactLoop v v1 v3 (u1 + u3 / v3 * v1) (u3 % v3) (!odd)
  else if odd then (v : Int) - (u1 : Int) else (u1 : Int)
termination_by v3
decreasing_by exact Nat.mod_lt _ (Nat.pos_of_ne_zero (by assumption))

/-- The unbounded counterpart of `calculateInverse`. -/
def calculateInverseExact (u v : Nat) : Int := calculateInverseExactLoop v 1 u 0 v false

/-- The statements of `main` in single.cpp that check the public exponent and
compute the private one: the two assertions on `e`, then
`phi = (p-1)*(q-1); d = calculateInverse(e, phi)`. `none` is a failed assertion. -/
def mainPrivateKey (p q e : Nat) : Option Nat :=
  if greatestCommonDivisor e (sub64 p 1) = 1 then
    if greatestCommonDivisor e (sub64 q 1) = 1 then
      some (calculateInverse e ((sub64 p 1 * sub64 q 1) % W64))
    else none
  else none

/-- Packing `pack` of single.cpp: two bytes per block, first byte in the low
eight bits; a last single byte is stored alone. -/
def pack : List Nat → List Nat
  | [] => []
  | [a] => [a]
  | a :: b :: rest => (a ||| (b <<< 8)) :: pack rest

/-- Unpacking `unpack` of single.cpp: every block gives the two bytes
`p & 0xFF` and `(unsigned char)(p >> 8)`. -/
def unpack : List Nat → List Nat
  | [] => []
  | p :: rest => (p &&& 0xFF) :: ((p >>> 8) % 256) :: unpack rest

/-- The constant `MIN_PRIME = 1<<8` of single.cpp. -/
def MIN_PRIME : Nat := 1 <<< 8

/-- The constant `MAX_PRIME = 1<<16` of single.cpp. -/
def MAX_PRIME : Nat := 1 <<< 16

/-- Sign carried by the parity flag of `calculateInverse`, as an element of `ZMod v`
(used to state the loop invariant). -/
def paritySign (v : Nat) (odd : Bool) : ZMod v := if odd then -1 else 1

end Single

namespace Multiple

/-!
`multiple.cpp` is written against the class `Integer` (`Integer.h`, `Integer.cpp`),
which is not among the sources. A multi-precision `Integer` is represented by the
natural number it denotes. The exact arithmetic operations are modelled from the
specification; the random prime generator, the modular inverse, the Barrett
context and the modular power are parameters of the functions that call them.
-/

/-- How a call of a function of multiple.cpp ends. -/
inductive Outcome (α : Type) where
  | returned (a : α) : Outcome α
  | assertionFailed : Outcome α
  | trapped : Outcome α
  | outOfFuel : Outcome α

/-- The record `RSAKeys` of multiple.cpp. -/
structure RSAKeys where
  n : Nat
  e : Nat
  d : Nat
  p : Nat
  q : Nat

/-- Modelled from the spec: `Integer::setProduct` (Integer.cpp is not among the
sources), "multiply(a, b) -> a*b". -/
def setProduct (a b : Nat) : Nat := a * b

/-- Modelled from the spec: `Integer::subtract` (Integer.cpp is not among the
sources), "subtract(a, b) -> a-b: requires a ≥ b; ... undefined (implementation
may trap) if a < b". `none` is the trap. -/
def subtract (a b : Nat) : Option Nat := if b ≤ a then some (a - b) else none

/-- Modelled from the spec: `Integer::modulus` (Integer.cpp is not among the
sources), the remainder of `divide`, which "requires b ≠ 0 (fails with
DivideByZero otherwise)". `none` is the failure. -/
def modulus (a b : Nat) : Option Nat := if b = 0 then none else some (a % b)

/-- Modelled from the spec: the value of a Digit Buffer (the representation of
`Integer`, whose code is not among the sources), "Value = Σ digit[i] · base^i",
least-significant digit first. `B` is the base `2^W`. -/
def value (B : Nat) : List Nat → Nat
  | [] => 0
  | d :: ds => d + B * value B ds

/-- Modelled from the spec: `Integer::add` (Integer.cpp is not among the sources),
"digit-wise addition with carry", here with the incoming carry `c`. -/
def addCarry (B : Nat) : List Nat → List Nat → Nat → List Nat
  | [], [], c => if c = 0 then [] else [c]
  | x :: xs, [], c => (x + c) % B :: addCarry B xs [] ((x + c) / B)
  | [], y :: ys, c => (y + c) % B :: addCarry B [] ys ((y + c) / B)
  | x :: xs, y :: ys, c => (x + y + c) % B :: addCarry B xs ys ((x + y + c) / B)

/-- Modelled from the spec: `x.add(y)` of the absent class `Integer`, the
digit-wise addition started without carry. -/
def add (B : Nat) (x y : List Nat) : List Nat := addCarry B x y 0

/-- Modelled from the spec: the long division behind `Integer::setFraction`
(Integer.cpp is not among the sources), "long division by repeated
estimate-and-correct on leading digits". The digits of `n` are consumed from the
most significant one; for each, the quotient digit is the largest `k` with
`k * d` not above the running remainder. Result: quotient digits and remainder. -/
def divideDigits (B d : Nat) : List Nat → List Nat × Nat
  | [] => ([], 0)
  | x :: xs =>
    (((divideDigits B d xs).2 * B + x) / d :: (divideDigits B d xs).1,
      ((divideDigits B d xs).2 * B + x) % d)

/-- Modelled from the spec: `f.setFraction(n, d, r)` of the absent class
`Integer`: "divide(a, b) -> (quotient, remainder) ... requires b ≠ 0 (fails with
DivideByZero otherwise)". `none` is the failure. -/
def setFraction (B : Nat) (n d : List Nat) : Option (List Nat × Nat) :=
  if value B d = 0 then none else some (divideDigits B (value B d) n)

/-- The loop `do { q.generatePrime(...); } while (q == p);` of `generateKeyPair`,
cut after `fuel` draws. `genPrime size k` is the value produced by the `k`-th call
of `Integer::generatePrime(size)`; the result is `q` and the number of calls made
so far. -/
def drawDistinct (genPrime : Nat → Nat → Nat) (size p : Nat) : Nat → Nat → Option (Nat × Nat)
  | 0, _ => none
  | fuel + 1, k =>
    if genPrime size k = p then drawDistinct genPrime size p fuel (k + 1)
    else some (genPrime size k, k + 1)

/-- The function `generateKeyPair` of multiple.cpp. Parameters standing for the
absent `Integer` code: the constant `DIGIT_BITS`, the results `genPrime size k` of
the successive calls of `generatePrime`, and the result `inverse e phi` of
`calculateInverse`. -/
def generateKeyPair (DIGIT_BITS : Nat) (genPrime : Nat → Nat → Nat) (inverse : Nat → Nat → Nat)
    (fuel bits : Nat) : Outcome RSAKeys :=
  let p := genPrime (bits / DIGIT_BITS) 0
  match drawDistinct genPrime (bits / DIGIT_BITS) p fuel 1 with
  | none => Outcome.outOfFuel
  | some (q, k) =>
    let n := setProduct p q
    let e := genPrime (bits / DIGIT_BITS) k
    match subtract p 1, subtract q 1 with
    | some p1, some q1 =>
      let phi := setProduct p1 q1
      let d := inverse e phi
      match modulus (setProduct e d) phi with
      | some ed =>
        if ed = 1 then Outcome.returned { n := n, e := e, d := d, p := p, q := q }
        else Outcome.assertionFailed
      | none => Outcome.trapped
    | _, _ => Outcome.trapped

/-- The loop of `transformMessage` over the remaining blocks. `result` is the
vector built so far; `powered` records the blocks handed to `setPower` so far.
`setPower c e br` is the value left in `c` by `c.setPower(*i, e, br)`. -/
def transformMessageLoop {β : Type} (setPower : Nat → Nat → β → Nat) (e n : Nat) (br : β) :
    List Nat → List Nat → List Nat → List Nat × Outcome (List Nat)
  | [], result, powered => (powered, Outcome.returned result)
  | c :: rest, result, powered =>
    if c < n then
      transformMessageLoop setPower e n br rest (result ++ [setPower c e br]) (powered ++ [c])
    else (powered, Outcome.assertionFailed)

/-- The function `transformMessage` of multiple.cpp. `barrett n` is the context
built by `BarrettReduction br(n)`. The first component of the result lists the
blocks that were exponentiated, the second is the outcome. -/
def transformMessage {β : Type} (barrett : Nat → β) (setPower : Nat → Nat → β → Nat)
    (e n : Nat) (message : List Nat) : List Nat × Outcome (List Nat) :=
  transformMessageLoop setPower e n (barrett n) message [] []

end Multiple

namespace Single

theorem W64_eq : W64 = 18446744073709551616 := by norm_num [W64]

theorem mod_W64_of_lt {x : Nat} (h : x < W64) : x % W64 = x := Nat.mod_eq_of_lt h

theorem mul_lt_W64 {x y m : Nat} (hm : m ≤ 2 ^ 32) (hx : x < m) (hy : y < m) : x * y < W64 := by
  have h1 : x * y < 2 ^ 32 * 2 ^ 32 :=
    Nat.mul_lt_mul'' (lt_of_lt_of_le hx hm) (lt_of_lt_of_le hy hm)
  rw [W64_eq]; norm_num at h1; exact h1

theorem calculatePowerLoop_zero (result b m : Nat) : calculatePowerLoop result b 0 m = result := by
  rw [calculatePowerLoop]; simp

theorem calculatePowerLoop_step (result b e m : Nat) (he : e ≠ 0) :
    calculatePowerLoop result b e m =
      calculatePowerLoop (if e % 2 = 1 then (result * b) % W64 % m else result)
        ((b * b) % W64 % m) (e / 2) m := by
  rw [calculatePowerLoop]
  simp only [he, ne_eq, not_false_eq_true, if_true, Nat.and_one_is_mod, Nat.shiftRight_one]
  congr 1
  rcases Nat.mod_two_eq_zero_or_one e with h | h <;> simp [h]

theorem calculatePowerLoop_spec (m : Nat) (hm0 : 0 < m) (hm : m ≤ 2 ^ 32) :
    ∀ e result b, result < m → b < m →
      calculatePowerLoop result b e m = (result * b ^ e) % m := by
  intro e
  induction e using Nat.strong_induction_on with
  | _ e ih =>
    intro result b hr hb
    by_cases he : e = 0
    · subst he
      rw [calculatePowerLoop_zero]; simp [Nat.mod_eq_of_lt hr]
    · rw [calculatePowerLoop_step _ _ _ _ he]
      have hbb : (b * b) % W64 = b * b := mod_W64_of_lt (mul_lt_W64 hm hb hb)
      have hrb : (result * b) % W64 = result * b := mod_W64_of_lt (mul_lt_W64 hm hr hb)
      rw [hbb, hrb]
      have hlt : e / 2 < e := Nat.div_lt_self (Nat.pos_of_ne_zero he) (by norm_num)
      have hexp : e = 2 * (e / 2) + e % 2 := (Nat.div_add_mod e 2).symm
      have hsq : ((b * b) % m) ^ (e / 2) % m = (b ^ (2 * (e / 2))) % m := by
        rw [← Nat.pow_mod, pow_mul, pow_two]
      rcases Nat.mod_two_eq_zero_or_one e with h | h
      · rw [if_neg (by omega)]
        rw [ih _ hlt _ _ hr (Nat.mod_lt _ hm0)]
        conv_rhs => rw [hexp, h, add_zero]
        rw [Nat.mul_mod, hsq, ← Nat.mul_mod]
      · rw [if_pos h]
        rw [ih _ hlt _ _ (Nat.mod_lt _ hm0) (Nat.mod_lt _ hm0)]
        conv_rhs => rw [hexp, h, pow_succ]
        rw [Nat.mul_mod, hsq, Nat.mod_mod, ← Nat.mul_mod]
        congr 1; ring

theorem calculatePower_spec (b e m : Nat) (hm2 : 2 ≤ m) (hm : m ≤ 2 ^ 32) (hb : b < m) :
    calculatePower b e m = b ^ e % m := by
  unfold calculatePower
  rw [calculatePowerLoop_spec m (by omega) hm e 1 b (by omega) hb, one_mul]

/-- C3: for every modulus `2 ≤ m ≤ 2^32`, every base `b < m` and every 64-bit
exponent `e`, `calculatePower b e m` is `b ^ e mod m` computed in exact
arithmetic; in particular `calculatePower 7 13 2773 = 7 ^ 13 mod 2773`. -/
theorem C3_calculatePower_eq_pow_mod :
    (∀ b e m : Nat, 2 ≤ m → m ≤ 2 ^ 32 → b < m → e < W64 →
      calculatePower b e m = b ^ e % m) ∧
    calculatePower 7 13 2773 = 7 ^ 13 % 2773 :=
  ⟨fun b e m hm2 hm hb _ => calculatePower_spec b e m hm2 hm hb,
   calculatePower_spec 7 13 2773 (by norm_num) (by norm_num) (by norm_num)⟩

theorem C3_calculatePower_eq_pow_mod_witness :
    calculatePower 4294967295 18446744073709551615 4294967296
      = 4294967295 ^ 18446744073709551615 % 4294967296 :=
  C3_calculatePower_eq_pow_mod.1 4294967295 18446744073709551615 4294967296
    (by norm_num) (by norm_num) (by norm_num) (by norm_num [W64])

end Single

namespace Single

theorem calculateInverseLoop_zero (v u1 u3 v1 : Nat) (odd : Bool) :
    calculateInverseLoop v u1 u3 v1 0 odd = if odd then sub64 v u1 else u1 := by
  rw [calculateInverseLoop]; simp

theorem calculateInverseLoop_step (v u1 u3 v1 v3 : Nat) (odd : Bool) (h : v3 ≠ 0) :
    calculateInverseLoop v u1 u3 v1 v3 odd =
      calculateInverseLoop v v1 v3 ((u1 + (u3 / v3 * v1) % W64) % W64) (u3 % v3) (!odd) := by
  rw [calculateInverseLoop]; simp [h]

theorem paritySign_not (v : Nat) (odd : Bool) : paritySign v (!odd) = - paritySign v odd := by
  cases odd <;> simp [paritySign]

/-- The linear invariant `u1 * v3 + v1 * u3 = v` is kept by one iteration, and
bounds the new `v1`. -/
theorem inverse_step_linear {v u1 u3 v1 v3 : Nat} (hlin : u1 * v3 + v1 * u3 = v) (h3 : v3 ≠ 0) :
    v1 * (u3 % v3) + (u1 + u3 / v3 * v1) * v3 = v ∧ u1 + u3 / v3 * v1 ≤ v := by
  have hdiv : v3 * (u3 / v3) + u3 % v3 = u3 := Nat.div_add_mod u3 v3
  have h1 : v1 * (u3 % v3) + (u1 + u3 / v3 * v1) * v3 = v := by
    calc v1 * (u3 % v3) + (u1 + u3 / v3 * v1) * v3
        = u1 * v3 + v1 * (v3 * (u3 / v3) + u3 % v3) := by ring
      _ = v := by rw [hdiv, hlin]
  refine ⟨h1, ?_⟩
  have hpos : 1 ≤ v3 := Nat.pos_of_ne_zero h3
  calc u1 + u3 / v3 * v1 = (u1 + u3 / v3 * v1) * 1 := (mul_one _).symm
    _ ≤ (u1 + u3 / v3 * v1) * v3 := Nat.mul_le_mul_left _ hpos
    _ ≤ v := by omega

theorem sub64_of_le {a b : Nat} (hb : b ≤ a) (ha : a < W64) : sub64 a b = a - b := by
  unfold sub64
  rw [show a + W64 - b = (a - b) + W64 by omega, Nat.add_mod_right]
  exact Nat.mod_eq_of_lt (by omega)

theorem calculateInverseLoop_spec (u v : Nat) (hv : v < W64) :
    ∀ v3 u1 u3 v1 odd, u1 ≤ v → v1 ≤ v → u1 * v3 + v1 * u3 = v → Nat.gcd u3 v3 = 1 →
      (u : ZMod v) * u1 = paritySign v odd * u3 →
      (u : ZMod v) * v1 = - paritySign v odd * v3 →
      (u : ZMod v) * (calculateInverseLoop v u1 u3 v1 v3 odd : Nat) = 1 := by
  intro v3
  induction v3 using Nat.strong_induction_on with
  | _ v3 ih =>
    intro u1 u3 v1 odd hu1 hv1 hlin hgcd hA hB
    by_cases h3 : v3 = 0
    · subst h3
      rw [calculateInverseLoop_zero]
      have hu3 : u3 = 1 := by simpa using hgcd
      subst hu3
      cases odd
      · simpa [paritySign] using hA
      · simp only [if_true, sub64_of_le hu1 hv]
        rw [Nat.cast_sub hu1, mul_sub, hA]
        simp [paritySign]
    · rw [calculateInverseLoop_step _ _ _ _ _ _ h3]
      obtain ⟨hlin', hle⟩ := inverse_step_linear hlin h3
      have hw : (u3 / v3 * v1) % W64 = u3 / v3 * v1 := Nat.mod_eq_of_lt (by omega)
      have ht : (u1 + u3 / v3 * v1) % W64 = u1 + u3 / v3 * v1 := Nat.mod_eq_of_lt (by omega)
      rw [hw, ht]
      have hmod : ((u3 % v3 : Nat) : ZMod v) = (u3 : ZMod v) - v3 * ((u3 / v3 : Nat) : ZMod v) := by
        have hdiv : v3 * (u3 / v3) + u3 % v3 = u3 := Nat.div_add_mod u3 v3
        have hc := congrArg (fun n : Nat => (n : ZMod v)) hdiv
        simp only [Nat.cast_add, Nat.cast_mul] at hc
        rw [← hc]; ring
      apply ih (u3 % v3) (Nat.mod_lt _ (Nat.pos_of_ne_zero h3)) v1 v3 _ (!odd) hv1 hle hlin'
      · rw [Nat.gcd_comm, ← Nat.gcd_rec, Nat.gcd_comm]; exact hgcd
      · rw [paritySign_not, hB]
      · rw [paritySign_not, hmod]
        push_cast
        rw [mul_add, hA, mul_left_comm, hB]
        ring

theorem calculateInverse_spec (u v : Nat) (hv : v < W64) (hv2 : 2 ≤ v) (hgcd : Nat.gcd u v = 1) :
    (u * calculateInverse u v) % v = 1 := by
  have h := calculateInverseLoop_spec u v hv v 1 u 0 false (by omega) (by omega) (by ring) hgcd
    (by simp [paritySign]) (by simp [paritySign])
  have h' : ((u * calculateInverse u v : Nat) : ZMod v) = ((1 : Nat) : ZMod v) := by
    push_cast; exact h
  have h'' := (ZMod.natCast_eq_natCast_iff _ _ _).mp h'
  unfold Nat.ModEq at h''
  rw [h'', Nat.mod_eq_of_lt (by omega)]

theorem calculateInverse_three_eleven : calculateInverse 3 11 = 4 := by
  unfold calculateInverse
  rw [calculateInverseLoop_step _ _ _ _ _ _ (by norm_num)]
  rw [calculateInverseLoop_step _ _ _ _ _ _ (by norm_num)]
  rw [calculateInverseLoop_step _ _ _ _ _ _ (by norm_num)]
  norm_num [W64]
  rw [calculateInverseLoop_step _ _ _ _ _ _ (by norm_num)]
  norm_num [W64, calculateInverseLoop_zero]

/-- C2: for all 64-bit `u`, `v` with `v ≥ 2` and `gcd(u, v) = 1`, the value
`d = calculateInverse u v` satisfies `(u * d) mod v = 1`, the product taken in
exact arithmetic; in particular `calculateInverse 3 11 = 4`. -/
theorem C2_calculateInverse_is_inverse :
    (∀ u v : Nat, u < W64 → v < W64 → 2 ≤ v → Nat.gcd u v = 1 →
      (u * calculateInverse u v) % v = 1) ∧
    calculateInverse 3 11 = 4 :=
  ⟨fun u v _ hv hv2 hgcd => calculateInverse_spec u v hv hv2 hgcd,
   calculateInverse_three_eleven⟩

theorem C2_calculateInverse_is_inverse_witness :
    (7 < W64 ∧ 120 < W64 ∧ 2 ≤ 120 ∧ Nat.gcd 7 120 = 1) ∧
      (7 * calculateInverse 7 120) % 120 = 1 :=
  ⟨⟨by norm_num [W64], by norm_num [W64], by norm_num, by norm_num⟩,
   C2_calculateInverse_is_inverse.1 7 120 (by norm_num [W64]) (by norm_num [W64])
     (by norm_num) (by norm_num)⟩

end Single

namespace Single

/-- Fermat's little theorem in exponent form: an exponent `1 + (p-1) * t` fixes
every residue modulo the prime `p`. -/
theorem pow_one_add_mul_modEq (p : Nat) (hp : p.Prime) (m t : Nat) :
    m ^ (1 + (p - 1) * t) ≡ m [MOD p] := by
  haveI : Fact p.Prime := ⟨hp⟩
  rw [← ZMod.natCast_eq_natCast_iff]
  push_cast
  by_cases h0 : (m : ZMod p) = 0
  · rw [h0]; simp
  · rw [pow_add, pow_mul, ZMod.pow_card_sub_one_eq_one h0]; simp

/-- The RSA identity: if `k ≡ 1` modulo `(p-1)(q-1)` for distinct primes `p`, `q`,
then `m ^ k ≡ m` modulo `p * q`, for every `m` (coprime to `p * q` or not). -/
theorem rsa_identity (p q : Nat) (hp : p.Prime) (hq : q.Prime) (hpq : p ≠ q) (k m : Nat)
    (hk : k % ((p - 1) * (q - 1)) = 1) : m ^ k ≡ m [MOD p * q] := by
  have hk' : k = 1 + (p - 1) * (q - 1) * (k / ((p - 1) * (q - 1))) := by
    have := Nat.div_add_mod k ((p - 1) * (q - 1))
    omega
  have hcop : Nat.Coprime p q := (Nat.coprime_primes hp hq).mpr hpq
  rw [← Nat.modEq_and_modEq_iff_modEq_mul hcop]
  constructor
  · rw [hk', mul_assoc]
    exact pow_one_add_mul_modEq p hp m _
  · rw [hk', mul_comm (p - 1) (q - 1), mul_assoc]
    exact pow_one_add_mul_modEq q hq m _

theorem rsa_round_trip (p q e m : Nat) (hp : p.Prime) (hq : q.Prime) (hpq : p ≠ q)
    (hn : p * q < 2 ^ 32) (hgcd : Nat.gcd e ((p - 1) * (q - 1)) = 1) (hm : m < p * q) :
    calculatePower (calculatePower m e (p * q))
      (calculateInverse e ((p - 1) * (q - 1))) (p * q) = m := by
  have hp2 := hp.two_le
  have hq2 := hq.two_le
  have hn2 : 2 ≤ p * q := by nlinarith
  have hphi2 : 2 ≤ (p - 1) * (q - 1) := by
    have h3 : 3 ≤ p ∨ 3 ≤ q := by omega
    rcases h3 with h | h
    · have h1 : 2 ≤ p - 1 := by omega
      have h2 : 1 ≤ q - 1 := by omega
      nlinarith
    · have h1 : 1 ≤ p - 1 := by omega
      have h2 : 2 ≤ q - 1 := by omega
      nlinarith
  have hphi_lt : (p - 1) * (q - 1) < W64 := by
    have h1 : (p - 1) * (q - 1) ≤ p * q := Nat.mul_le_mul (Nat.sub_le _ _) (Nat.sub_le _ _)
    rw [W64_eq]; norm_num at hn; omega
  have hinv := calculateInverse_spec e _ hphi_lt hphi2 hgcd
  rw [calculatePower_spec m e _ hn2 hn.le hm]
  rw [calculatePower_spec _ _ _ hn2 hn.le (Nat.mod_lt _ (by omega))]
  rw [← Nat.pow_mod, ← pow_mul]
  have h := rsa_identity p q hp hq hpq _ m hinv
  unfold Nat.ModEq at h
  rw [h, Nat.mod_eq_of_lt hm]

/-- C1: RSA round trip of single.cpp. For all distinct primes `p`, `q` with
`n = p * q < 2^32`, every 64-bit `e` coprime to `(p-1)(q-1)`, with
`d = calculateInverse e ((p-1)(q-1))`, and every `m < n`:
`calculatePower (calculatePower m e n) d n = m`. -/
theorem C1_rsa_round_trip (p q e m : Nat) (hp : p.Prime) (hq : q.Prime) (hpq : p ≠ q)
    (hn : p * q < 2 ^ 32) (_he : e < W64) (hgcd : Nat.gcd e ((p - 1) * (q - 1)) = 1)
    (hm : m < p * q) :
    calculatePower (calculatePower m e (p * q))
      (calculateInverse e ((p - 1) * (q - 1))) (p * q) = m :=
  rsa_round_trip p q e m hp hq hpq hn hgcd hm

theorem C1_rsa_round_trip_witness :
    (Nat.Prime 47 ∧ Nat.Prime 59 ∧ 47 ≠ 59 ∧ 47 * 59 < 2 ^ 32 ∧ 17 < W64 ∧
      Nat.gcd 17 ((47 - 1) * (59 - 1)) = 1 ∧ 920 < 47 * 59) ∧
    calculatePower (calculatePower 920 17 (47 * 59))
      (calculateInverse 17 ((47 - 1) * (59 - 1))) (47 * 59) = 920 :=
  ⟨⟨by norm_num, by norm_num, by norm_num, by norm_num, by norm_num [W64], by norm_num,
    by norm_num⟩,
   C1_rsa_round_trip 47 59 17 920 (by norm_num) (by norm_num) (by norm_num) (by norm_num)
     (by norm_num [W64]) (by norm_num) (by norm_num)⟩

end Single

namespace Single

theorem wrapS_of_range {x : Int} (h1 : -2 ^ 63 ≤ x) (h2 : x < 2 ^ 63) : wrapS x = x := by
  unfold wrapS; omega

theorem jacobi_unfold (a b : Int) :
    jacobi a b =
      if a = 0 ∨ a = 1 then a
      else if a.tmod 2 = 0 then
        if ((wrapS (wrapS (b * b) - 1)).tdiv 8).tmod 2 = 0 then jacobi (a.tdiv 2) b
        else - jacobi (a.tdiv 2) b
      else if ((wrapS (wrapS (a - 1) * wrapS (b - 1))).tdiv 4).tmod 2 = 0 then jacobi (b.tmod a) a
      else - jacobi (b.tmod a) a := by
  rw [jacobi]

/-- On arguments in `[1, 2^31)` the signed 64-bit computation of `jacobi` is the
same computation over the natural numbers: nothing wraps and the truncating
division is the floor division. -/
theorem jacobi_natCast (a b : Nat) (ha : a < 2 ^ 31) (hb1 : 1 ≤ b) (hb : b < 2 ^ 31) :
    jacobi (a : Int) (b : Int) =
      if a = 0 ∨ a = 1 then (a : Int)
      else if a % 2 = 0 then
        if (b * b - 1) / 8 % 2 = 0 then jacobi ((a / 2 : Nat) : Int) b
        else - jacobi ((a / 2 : Nat) : Int) b
      else if (a - 1) * (b - 1) / 4 % 2 = 0 then jacobi ((b % a : Nat) : Int) a
      else - jacobi ((b % a : Nat) : Int) a := by
  rw [jacobi_unfold]
  have hbb : b * b < 2 ^ 31 * 2 ^ 31 := Nat.mul_lt_mul'' hb hb
  have hbb1 : 1 ≤ b * b := Nat.mul_pos hb1 hb1
  by_cases h01 : a = 0 ∨ a = 1
  · have : ((a : Int) = 0 ∨ (a : Int) = 1) := by
      rcases h01 with h | h <;> simp [h]
    rw [if_pos this, if_pos h01]
  · have h01' : ¬ ((a : Int) = 0 ∨ (a : Int) = 1) := by
      intro h; apply h01
      rcases h with h | h
      · left; exact_mod_cast h
      · right; exact_mod_cast h
    rw [if_neg h01', if_neg h01]
    have ha1 : 1 ≤ a := by omega
    have hab : (a - 1) * (b - 1) < 2 ^ 31 * 2 ^ 31 :=
      Nat.mul_lt_mul'' (by omega) (by omega)
    have e1 : wrapS (wrapS ((b : Int) * b) - 1) = ((b * b - 1 : Nat) : Int) := by
      have h2 : ((b * b : Nat) : Int) < 2 ^ 62 := by
        have : b * b < 2 ^ 62 := by norm_num at hbb ⊢; exact hbb
        exact_mod_cast this
      have i1 : wrapS ((b : Int) * b) = ((b * b : Nat) : Int) := by
        rw [← Nat.cast_mul]; exact wrapS_of_range (by omega) (by omega)
      have i2 : ((b * b : Nat) : Int) - 1 = ((b * b - 1 : Nat) : Int) := by
        rw [Nat.cast_sub hbb1]; simp
      rw [i1, i2]
      exact wrapS_of_range (by omega) (by omega)
    have e2 : wrapS (wrapS ((a : Int) - 1) * wrapS ((b : Int) - 1))
        = (((a - 1) * (b - 1) : Nat) : Int) := by
      have hca : (a : Int) - 1 = ((a - 1 : Nat) : Int) := by rw [Nat.cast_sub ha1]; simp
      have hcb : (b : Int) - 1 = ((b - 1 : Nat) : Int) := by rw [Nat.cast_sub hb1]; simp
      have h2 : (((a - 1) * (b - 1) : Nat) : Int) < 2 ^ 62 := by
        have : (a - 1) * (b - 1) < 2 ^ 62 := by norm_num at hab ⊢; exact hab
        exact_mod_cast this
      have i1 : wrapS ((a : Int) - 1) = ((a - 1 : Nat) : Int) := by
        rw [hca]; exact wrapS_of_range (by omega) (by omega)
      have i2 : wrapS ((b : Int) - 1) = ((b - 1 : Nat) : Int) := by
        rw [hcb]; exact wrapS_of_range (by omega) (by omega)
      rw [i1, i2, ← Nat.cast_mul]
      exact wrapS_of_range (by omega) (by omega)
    rw [e1, e2]
    have c2 : (2 : Int) = ((2 : Nat) : Int) := rfl
    have c4 : (4 : Int) = ((4 : Nat) : Int) := rfl
    have c8 : (8 : Int) = ((8 : Nat) : Int) := rfl
    have c0 : (0 : Int) = ((0 : Nat) : Int) := rfl
    rw [c2, c4, c8, c0]
    simp only [← Int.ofNat_tdiv, ← Int.ofNat_tmod, Nat.cast_inj]

theorem two_sym_parity (b : Nat) (hodd : b % 2 = 1) :
    ((b * b - 1) / 8 % 2 = 0) ↔ (b % 8 = 1 ∨ b % 8 = 7) := by
  have h : (b * b) % 16 = ((b % 16) * (b % 16)) % 16 := Nat.mul_mod _ _ _
  obtain ⟨r, hr⟩ : ∃ r, r = b % 16 := ⟨_, rfl⟩
  rw [← hr] at h
  have hr16 : r < 16 := by omega
  generalize b * b = s at h
  interval_cases r <;> norm_num at h <;> omega

theorem reciprocity_parity (a b : Nat) (ha : a % 2 = 1) (hb : b % 2 = 1) :
    (a - 1) * (b - 1) / 4 = a / 2 * (b / 2) := by
  have h1 : a - 1 = 2 * (a / 2) := by omega
  have h2 : b - 1 = 2 * (b / 2) := by omega
  rw [h1, h2, show 2 * (a / 2) * (2 * (b / 2)) = 4 * (a / 2 * (b / 2)) by ring]
  exact Nat.mul_div_cancel_left _ (by norm_num)

theorem jacobi_eq_jacobiSym_nat :
    ∀ a b : Nat, b % 2 = 1 → 3 ≤ b → b < 2 ^ 31 → a < 2 ^ 31 →
      jacobi (a : Int) (b : Int) = jacobiSym a b := by
  intro a
  induction a using Nat.strong_induction_on with
  | _ a ih =>
    intro b hodd hb3 hb ha
    rw [jacobi_natCast a b ha (by omega) hb]
    by_cases h01 : a = 0 ∨ a = 1
    · rw [if_pos h01]
      rcases h01 with h | h
      · subst h; simp [jacobiSym.zero_left (show 1 < b by omega)]
      · subst h; simp [jacobiSym.one_left]
    · rw [if_neg h01]
      by_cases hev : a % 2 = 0
      · rw [if_pos hev]
        have hlt : a / 2 < a := by omega
        rw [ih (a / 2) hlt b hodd hb3 hb (by omega)]
        have ha2 : (a : Int) = 2 * ((a / 2 : Nat) : Int) := by
          have : a = 2 * (a / 2) := by omega
          exact_mod_cast this
        have hsplit : jacobiSym a b = jacobiSym 2 b * jacobiSym ((a / 2 : Nat) : Int) b := by
          conv_lhs => rw [ha2]
          exact jacobiSym.mul_left _ _ _
        have htwo : jacobiSym 2 b = if b % 8 = 1 ∨ b % 8 = 7 then 1 else -1 := by
          rw [jacobiSym.at_two (Nat.odd_iff.mpr hodd), ZMod.χ₈_nat_eq_if_mod_eight,
            if_neg (by omega)]
        rw [hsplit, htwo]
        by_cases hp : (b * b - 1) / 8 % 2 = 0
        · rw [if_pos hp, if_pos ((two_sym_parity b hodd).mp hp), one_mul]
        · rw [if_neg hp, if_neg (fun h => hp ((two_sym_parity b hodd).mpr h))]; ring
      · rw [if_neg hev]
        have hodda : a % 2 = 1 := by omega
        have ha3 : 3 ≤ a := by omega
        have hlt : b % a < a := Nat.mod_lt _ (by omega)
        rw [ih (b % a) hlt a hodda ha3 ha (by omega)]
        have hrec := jacobiSym.quadratic_reciprocity (Nat.odd_iff.mpr hodda) (Nat.odd_iff.mpr hodd)
        have hmod : jacobiSym ((b % a : Nat) : Int) a = jacobiSym b a := by
          rw [jacobiSym.mod_left (b : Int) a]; norm_cast
        rw [hmod, hrec, reciprocity_parity a b hodda hodd]
        by_cases hp : a / 2 * (b / 2) % 2 = 0
        · rw [if_pos hp, (Nat.even_iff.mpr hp).neg_one_pow, one_mul]
        · rw [if_neg hp, (Nat.odd_iff.mpr (by omega)).neg_one_pow]; ring

theorem jacobi_eq_jacobiSym (a b : Int) (ha0 : 0 ≤ a) (ha : a < 2 ^ 31) (hb3 : 3 ≤ b)
    (hb : b < 2 ^ 31) (hodd : b % 2 = 1) : jacobi a b = jacobiSym a b.toNat := by
  lift a to Nat using ha0
  lift b to Nat using (by omega : (0 : Int) ≤ b)
  rw [Int.toNat_natCast]
  exact jacobi_eq_jacobiSym_nat a b (by omega) (by omega) (by omega) (by omega)

/-- C5: for every odd `b` with `3 ≤ b < 2^31` and every `a` with `0 ≤ a < 2^31`,
`jacobi a b` (a total function: the recursion on `|a|` is well founded) is the
Jacobi symbol `(a / b)`, a value in `{-1, 0, 1}`. -/
theorem C5_jacobi_is_jacobi_symbol (a b : Int) (ha0 : 0 ≤ a) (ha : a < 2 ^ 31) (hb3 : 3 ≤ b)
    (hb : b < 2 ^ 31) (hodd : b % 2 = 1) :
    jacobi a b = jacobiSym a b.toNat ∧ (jacobi a b = -1 ∨ jacobi a b = 0 ∨ jacobi a b = 1) := by
  have h := jacobi_eq_jacobiSym a b ha0 ha hb3 hb hodd
  refine ⟨h, ?_⟩
  rw [h]
  rcases jacobiSym.trichotomy a b.toNat with h | h | h <;> simp [h]

theorem C5_jacobi_is_jacobi_symbol_witness :
    ((0 : Int) ≤ 1001 ∧ (1001 : Int) < 2 ^ 31 ∧ (3 : Int) ≤ 9907 ∧ (9907 : Int) < 2 ^ 31 ∧
      (9907 : Int) % 2 = 1) ∧
    (jacobi 1001 9907 = jacobiSym 1001 (9907 : Int).toNat ∧
      (jacobi 1001 9907 = -1 ∨ jacobi 1001 9907 = 0 ∨ jacobi 1001 9907 = 1)) :=
  ⟨⟨by norm_num, by norm_num, by norm_num, by norm_num, by norm_num⟩,
   C5_jacobi_is_jacobi_symbol 1001 9907 (by norm_num) (by norm_num) (by norm_num)
     (by norm_num) (by norm_num)⟩

end Single

namespace Single

theorem greatestCommonDivisor_eq_gcd : ∀ b a : Nat, greatestCommonDivisor a b = Nat.gcd a b := by
  intro b
  induction b using Nat.strong_induction_on with
  | _ b ih =>
    intro a
    rw [greatestCommonDivisor]
    by_cases hb : b = 0
    · simp [hb]
    · rw [if_neg hb, ih (a % b) (Nat.mod_lt _ (Nat.pos_of_ne_zero hb)) b]
      rw [Nat.gcd_comm b (a % b), ← Nat.gcd_rec, Nat.gcd_comm]

theorem robustPrimeTestLoop_of_prime (p : Nat) (hp : p.Prime) :
    ∀ k d, p / 2 + 1 - d = k → 2 ≤ d → robustPrimeTestLoop p d = true := by
  intro k
  induction k with
  | zero =>
    intro d hk _
    rw [robustPrimeTestLoop, if_neg (by omega)]
  | succ k ih =>
    intro d hk hd
    rw [robustPrimeTestLoop, if_pos (by omega)]
    have hnd : p % d ≠ 0 := by
      intro h
      have hdvd : d ∣ p := Nat.dvd_of_mod_eq_zero h
      rcases (Nat.dvd_prime hp).mp hdvd with h1 | h1 <;> omega
    rw [if_neg hnd]
    exact ih (d + 1) (by omega) (by omega)

theorem robustPrimeTest_of_prime (p : Nat) (hp : p.Prime) : robustPrimeTest p = true :=
  robustPrimeTestLoop_of_prime p hp _ 2 rfl (le_refl _)

theorem toSigned_of_lt {x : Nat} (h : x < 2 ^ 63) : toSigned x = (x : Int) := by
  unfold toSigned
  exact wrapS_of_range (by omega) (by omega)

/-- The random witness drawn by `testPrime` lies in `[2, p)` when `3 ≤ p`. -/
theorem generateRandomNumber_two (rand : Nat → Nat) (i p : Nat) (hp3 : 3 ≤ p) (hp : p < W64) :
    2 ≤ (generateRandomNumber rand i 2 p).1 ∧ (generateRandomNumber rand i 2 p).1 < p := by
  unfold generateRandomNumber
  simp only
  rw [sub64_of_le (by omega) hp]
  have hlt : (generateRandomNumber0 rand i).1 % (p - 2) < p - 2 := Nat.mod_lt _ (by omega)
  rw [Nat.mod_eq_of_lt (by omega)]
  omega

/-- Euler's criterion in the form the test compares: for an odd prime `p` and
`0 < a < p`, either the symbol is `1` and the power is `1`, or the symbol is
`-1` and the power is `p - 1`. -/
theorem euler_criterion_nat (p a : Nat) (hp : p.Prime) (hp3 : 3 ≤ p) (ha0 : 0 < a) (ha : a < p) :
    (jacobiSym a p = 1 ∧ a ^ ((p - 1) / 2) % p = 1) ∨
    (jacobiSym a p = -1 ∧ a ^ ((p - 1) / 2) % p = p - 1) := by
  haveI : Fact p.Prime := ⟨hp⟩
  have hodd : p % 2 = 1 := by
    rcases hp.eq_two_or_odd with h | h <;> omega
  have hhalf : (p - 1) / 2 = p / 2 := by omega
  rw [hhalf]
  have hleg : legendreSym p a = jacobiSym a p := jacobiSym.legendreSym.to_jacobiSym p a
  have heul : ((legendreSym p a : Int) : ZMod p) = ((a : Int) : ZMod p) ^ (p / 2) :=
    legendreSym.eq_pow p a
  rw [hleg] at heul
  have hne : (((a : Int) : ZMod p)) ≠ 0 := by
    rw [Int.cast_natCast, Ne, ZMod.natCast_zmod_eq_zero_iff_dvd]
    intro hdvd
    exact absurd (Nat.le_of_dvd ha0 hdvd) (by omega)
  have hcast : ((a ^ (p / 2) : Nat) : ZMod p) = ((a : Int) : ZMod p) ^ (p / 2) := by
    push_cast; rfl
  rcases jacobiSym.trichotomy a p with h | h | h
  · exfalso
    rw [h] at heul
    simp only [Int.cast_zero] at heul
    exact hne (pow_eq_zero_iff (by omega) |>.mp heul.symm)
  · left
    refine ⟨h, ?_⟩
    rw [h] at heul
    have h1 : ((a ^ (p / 2) : Nat) : ZMod p) = ((1 : Nat) : ZMod p) := by
      rw [hcast, ← heul]; simp
    have h2 := (ZMod.natCast_eq_natCast_iff _ _ _).mp h1
    unfold Nat.ModEq at h2
    rw [h2, Nat.mod_eq_of_lt (by omega)]
  · right
    refine ⟨h, ?_⟩
    rw [h] at heul
    have h1 : ((a ^ (p / 2) : Nat) : ZMod p) = ((p - 1 : Nat) : ZMod p) := by
      rw [hcast, ← heul, Nat.cast_sub (by omega)]; simp
    have h2 := (ZMod.natCast_eq_natCast_iff _ _ _).mp h1
    unfold Nat.ModEq at h2
    rw [h2, Nat.mod_eq_of_lt (by omega)]

theorem testPrimeLoop_of_prime (rand : Nat → Nat) (p : Nat) (hp : p.Prime) (hp3 : 3 ≤ p)
    (hlt : p < 2 ^ 31) : ∀ tests i, testPrimeLoop rand tests p i = (true, i + 3 * tests) := by
  intro tests
  induction tests with
  | zero => intro i; rfl
  | succ tests ih =>
    intro i
    have hpW : p < W64 := by rw [W64_eq]; omega
    obtain ⟨ha2, hap⟩ := generateRandomNumber_two rand i p hp3 hpW
    have hidx : (generateRandomNumber rand i 2 p).2 = i + 3 := rfl
    unfold testPrimeLoop
    simp only
    generalize (generateRandomNumber rand i 2 p) = a at ha2 hap hidx
    have hgcd : greatestCommonDivisor a.1 p = 1 := by
      rw [greatestCommonDivisor_eq_gcd]
      have hnd : ¬ p ∣ a.1 := fun hd => absurd (Nat.le_of_dvd (by omega) hd) (by omega)
      exact Nat.Coprime.symm ((Nat.Prime.coprime_iff_not_dvd hp).mpr hnd)
    rw [if_pos hgcd]
    have hsub : sub64 p 1 = p - 1 := sub64_of_le (by omega) hpW
    have hpow : calculatePower a.1 (sub64 p 1 / 2) p = a.1 ^ ((p - 1) / 2) % p := by
      rw [hsub]
      exact calculatePower_spec _ _ _ (by omega) (by omega) hap
    have hjac : jacobi (toSigned a.1) (toSigned p) = jacobiSym a.1 p := by
      rw [toSigned_of_lt (by omega), toSigned_of_lt (by omega)]
      have hodd : p % 2 = 1 := by
        rcases hp.eq_two_or_odd with h | h <;> omega
      exact jacobi_eq_jacobiSym_nat a.1 p hodd hp3 hlt (by omega)
    have hnext : testPrimeLoop rand tests p a.2 = (true, i + 3 * (tests + 1)) := by
      have e : i + 3 + 3 * tests = i + 3 * (tests + 1) := by ring
      rw [ih, hidx, e]
    rw [hpow, hjac, hsub]
    rcases euler_criterion_nat p a.1 hp hp3 (by omega) hap with ⟨hj, hl⟩ | ⟨hj, hl⟩
    · rw [if_pos (Or.inr (by rw [hj, hl]; rfl))]
      exact hnext
    · rw [if_pos (Or.inl ⟨hj, hl⟩)]
      exact hnext

/-- On an odd prime below `2^31` all ten trials pass, each consuming three
`rand()` values. -/
theorem testPrime_of_odd_prime (rand : Nat → Nat) (i p : Nat) (hp : p.Prime) (hp3 : 3 ≤ p)
    (hlt : p < 2 ^ 31) : testPrime rand p i = (true, i + 30) := by
  unfold testPrime
  rw [if_neg (by omega), testPrimeLoop_of_prime rand p hp hp3 hlt 10 i]

theorem testPrime_of_prime (rand : Nat → Nat) (i p : Nat) (hp : p.Prime) (hlt : p < 2 ^ 31) :
    (testPrime rand p i).1 = true := by
  by_cases h2 : p = 2
  · unfold testPrime
    rw [if_pos h2]
  · have := hp.two_le
    rw [testPrime_of_odd_prime rand i p hp (by omega) hlt]

/-- C4: `testPrime` never rejects a prime. For every prime `p < 2^31`, every
stream `rand` of values returned by the random number generator and every
position `i` in it, `testPrime` returns true, so on primes it agrees with
`robustPrimeTest`. -/
theorem C4_testPrime_accepts_primes (rand : Nat → Nat) (i p : Nat) (hp : p.Prime)
    (hlt : p < 2 ^ 31) :
    (testPrime rand p i).1 = true ∧ (testPrime rand p i).1 = robustPrimeTest p := by
  have h := testPrime_of_prime rand i p hp hlt
  exact ⟨h, by rw [h, robustPrimeTest_of_prime p hp]⟩

theorem C4_testPrime_accepts_primes_witness :
    (Nat.Prime 7919 ∧ 7919 < 2 ^ 31) ∧
    ((testPrime (fun k => 1103515245 * k + 12345) 7919 0).1 = true ∧
      (testPrime (fun k => 1103515245 * k + 12345) 7919 0).1 = robustPrimeTest 7919) :=
  ⟨⟨by norm_num, by norm_num⟩,
   C4_testPrime_accepts_primes (fun k => 1103515245 * k + 12345) 0 7919 (by norm_num)
     (by norm_num)⟩

end Single

namespace Single

theorem pack_pair_low (a b : Nat) (ha : a < 256) : (a ||| (b <<< 8)) &&& 0xFF = a := by
  have h1 : a ||| (b <<< 8) = b <<< 8 + a := by
    rw [Nat.lor_comm, Nat.shiftLeft_eq, Nat.mul_comm]
    exact (Nat.mul_add_lt_is_or (show a < 2 ^ 8 by omega) b).symm
  have h2 : (0xFF : Nat) = 2 ^ 8 - 1 := by norm_num
  rw [h1, h2, Nat.and_pow_two_sub_one_eq_mod, Nat.shiftLeft_eq]
  omega

theorem pack_pair_high (a b : Nat) (ha : a < 256) (hb : b < 256) :
    ((a ||| (b <<< 8)) >>> 8) % 256 = b := by
  have h1 : a ||| (b <<< 8) = b <<< 8 + a := by
    rw [Nat.lor_comm, Nat.shiftLeft_eq, Nat.mul_comm]
    exact (Nat.mul_add_lt_is_or (show a < 2 ^ 8 by omega) b).symm
  rw [h1, Nat.shiftRight_eq_div_pow, Nat.shiftLeft_eq]
  omega

theorem pack_single_low (a : Nat) (ha : a < 256) : a &&& 0xFF = a := by
  have h2 : (0xFF : Nat) = 2 ^ 8 - 1 := by norm_num
  rw [h2, Nat.and_pow_two_sub_one_eq_mod]
  omega

theorem pack_single_high (a : Nat) (ha : a < 256) : (a >>> 8) % 256 = 0 := by
  rw [Nat.shiftRight_eq_div_pow]
  omega

theorem unpack_pack :
    ∀ t : List Nat, (∀ b ∈ t, b < 256) →
      unpack (pack t) = if t.length % 2 = 0 then t else t ++ [0]
  | [], _ => by simp [pack, unpack]
  | [a], h => by
    have ha : a < 256 := h a (by simp)
    simp [pack, unpack, pack_single_low a ha, pack_single_high a ha]
  | a :: b :: rest, h => by
    have ha : a < 256 := h a (by simp)
    have hb : b < 256 := h b (by simp)
    have ih := unpack_pack rest (fun c hc => h c (by simp [hc]))
    have hlen : (a :: b :: rest).length % 2 = rest.length % 2 := by
      simp only [List.length_cons]; omega
    rw [hlen]
    simp only [pack, unpack, pack_pair_low a b ha, pack_pair_high a b ha hb, ih]
    split <;> simp

/-- C6: for every byte string `t` (a list of values below 256), `unpack (pack t)`
of single.cpp is `t` when the length of `t` is a multiple of the 2-byte block
size, and `t` followed by one zero byte when the length of `t` is odd. -/
theorem C6_unpack_pack_round_trip (t : List Nat) (hbytes : ∀ b ∈ t, b < 256) :
    (t.length % 2 = 0 → unpack (pack t) = t) ∧
    (t.length % 2 = 1 → unpack (pack t) = t ++ [0]) := by
  have h := unpack_pack t hbytes
  constructor
  · intro hl; rw [h, if_pos hl]
  · intro hl; rw [h, if_neg (by omega)]

theorem C6_unpack_pack_round_trip_witness :
    ((∀ b ∈ [0x52, 0x53, 0x41, 0xFF], b < 256) ∧
      ([0x52, 0x53, 0x41, 0xFF] : List Nat).length % 2 = 0 ∧
      unpack (pack [0x52, 0x53, 0x41, 0xFF]) = [0x52, 0x53, 0x41, 0xFF]) ∧
    ((∀ b ∈ [0x52, 0x53, 0x41, 0xFF, 0x21], b < 256) ∧
      ([0x52, 0x53, 0x41, 0xFF, 0x21] : List Nat).length % 2 = 1 ∧
      unpack (pack [0x52, 0x53, 0x41, 0xFF, 0x21]) = [0x52, 0x53, 0x41, 0xFF, 0x21] ++ [0]) :=
  ⟨⟨by decide, by decide,
    (C6_unpack_pack_round_trip [0x52, 0x53, 0x41, 0xFF] (by decide)).1 (by decide)⟩,
   ⟨by decide, by decide,
    (C6_unpack_pack_round_trip [0x52, 0x53, 0x41, 0xFF, 0x21] (by decide)).2 (by decide)⟩⟩

end Single

namespace Single

theorem generateRandomNumber_lt_W64 (rand : Nat → Nat) (i min max : Nat) :
    (generateRandomNumber rand i min max).1 < W64 := by
  unfold generateRandomNumber
  exact Nat.mod_lt _ (by rw [W64_eq]; norm_num)

/-- A 64-bit candidate that passes the filter `(p+1) == 0 || ((p+1) & p) == 0` of
`generatePrime` is not of the form `2^k - 1`. -/
theorem not_mersenne_of_filter (p : Nat) (hp : p < W64)
    (hf : ¬ ((p + 1) % W64 = 0 ∨ ((p + 1) % W64) &&& p = 0)) :
    ∀ k, 1 ≤ k → p ≠ 2 ^ k - 1 := by
  intro k _ hpk
  apply hf
  have hpos : 1 ≤ 2 ^ k := Nat.one_le_two_pow
  have hp1 : p + 1 = 2 ^ k := by omega
  by_cases hk64 : k = 64
  · left
    rw [hp1, hk64, W64]; simp
  · right
    have hklt : k < 64 := by
      by_contra hge
      have h65 : 2 ^ 65 ≤ 2 ^ k := Nat.pow_le_pow_right (by norm_num) (by omega)
      rw [W64_eq] at hp
      norm_num at h65
      omega
    have hlt : 2 ^ k < W64 := by
      rw [W64]; exact (Nat.pow_lt_pow_iff_right (by norm_num)).mpr hklt
    rw [hp1, Nat.mod_eq_of_lt hlt, hpk, Nat.and_pow_two_sub_one_eq_mod]
    simp

theorem generatePrime_spec (rand : Nat → Nat) (min max : Nat) :
    ∀ fuel i p i', generatePrime rand fuel min max i = some (p, i') →
      p % 2 = 1 ∧ p < W64 ∧ ¬ ((p + 1) % W64 = 0 ∨ ((p + 1) % W64) &&& p = 0) ∧
      ∃ j, testPrime rand p j = (true, i') := by
  intro fuel
  induction fuel with
  | zero => intro i p i' h; simp [generatePrime] at h
  | succ fuel ih =>
    intro i p i' h
    unfold generatePrime at h
    simp only at h
    by_cases hf : (((generateRandomNumber rand i min max).1 ||| 1) + 1) % W64 = 0 ∨
        ((((generateRandomNumber rand i min max).1 ||| 1) + 1) % W64) &&&
          ((generateRandomNumber rand i min max).1 ||| 1) = 0
    · rw [if_pos hf] at h
      exact ih _ _ _ h
    · rw [if_neg hf] at h
      by_cases ht : (testPrime rand ((generateRandomNumber rand i min max).1 ||| 1)
          (generateRandomNumber rand i min max).2).1 = true
      · rw [if_pos ht] at h
        simp only [Option.some.injEq, Prod.mk.injEq] at h
        obtain ⟨hp, hi⟩ := h
        subst hp
        refine ⟨?_, ?_, hf, ⟨(generateRandomNumber rand i min max).2, ?_⟩⟩
        · exact Nat.or_mod_two_eq_one.mpr (Or.inr rfl)
        · rw [W64]
          exact Nat.or_lt_two_pow (generateRandomNumber_lt_W64 rand i min max) (by norm_num)
        · rw [← hi, ← ht]
      · rw [if_neg ht] at h
        exact ih _ _ _ h

/-- C7: every value `p` returned by `generatePrime min max` (for 64-bit
`min < max`, any stream of random draws and any number of rounds) is odd, is not
of the form `2^k - 1` for any `k ≥ 1`, and was accepted by `testPrime`: the call
of `testPrime p` made just before returning gave true. -/
theorem C7_generatePrime_result_filtered (rand : Nat → Nat) (fuel min max i p i' : Nat)
    (_hmin : min < max) (_hmax : max < W64)
    (h : generatePrime rand fuel min max i = some (p, i')) :
    p % 2 = 1 ∧ (∀ k, 1 ≤ k → p ≠ 2 ^ k - 1) ∧ ∃ j, testPrime rand p j = (true, i') := by
  obtain ⟨hodd, hlt, hf, ht⟩ := generatePrime_spec rand min max fuel i p i' h
  exact ⟨hodd, not_mersenne_of_filter p hlt hf, ht⟩

end Single

namespace Single

/-- One round of `generatePrime` returns its candidate when the candidate passes
the filter and is an odd prime below `2^31`. -/
theorem generatePrime_of_prime_candidate (rand : Nat → Nat) (fuel min max i c : Nat)
    (hc : (generateRandomNumber rand i min max).1 ||| 1 = c)
    (hf : ¬ ((c + 1) % W64 = 0 ∨ ((c + 1) % W64) &&& c = 0))
    (hp : c.Prime) (hc3 : 3 ≤ c) (hlt : c < 2 ^ 31) :
    generatePrime rand (fuel + 1) min max i = some (c, i + 33) := by
  have hidx : (generateRandomNumber rand i min max).2 = i + 3 := rfl
  have ht : testPrime rand c (i + 3) = (true, i + 33) :=
    testPrime_of_odd_prime rand (i + 3) c hp hc3 hlt
  unfold generatePrime
  simp only [hc, hidx, if_neg hf, ht, if_true]

theorem C7_generatePrime_result_filtered_witness :
    (256 < 65536 ∧ 65536 < W64 ∧ generatePrime (fun _ => 1) 1 256 65536 0 = some (257, 33)) ∧
    (257 % 2 = 1 ∧ (∀ k, 1 ≤ k → 257 ≠ 2 ^ k - 1) ∧
      ∃ j, testPrime (fun _ => 1) 257 j = (true, 33)) :=
  have hrun : generatePrime (fun _ => 1) 1 256 65536 0 = some (257, 33) :=
    generatePrime_of_prime_candidate (fun _ => 1) 0 256 65536 0 257
      (by norm_num [generateRandomNumber, generateRandomNumber0, sub64, W64]; decide)
      (by rw [W64_eq]; decide) (by norm_num) (by norm_num) (by norm_num)
  ⟨⟨by norm_num, by norm_num [W64], hrun⟩,
   C7_generatePrime_result_filtered (fun _ => 1) 1 256 65536 0 257 33 (by norm_num)
     (by norm_num [W64]) hrun⟩

/-- C8 (evaluation of the code): `generatePrime 4 5` returns `5 = max` for every
stream of draws, and `generatePrime 5 7` returns `5 = min` when the first draw is
even, so the result does not satisfy `min < p < max`. -/
theorem C8_generatePrime_returns_endpoint :
    (∀ (rand : Nat → Nat) (fuel i : Nat),
      generatePrime rand (fuel + 1) 4 5 i = some (5, i + 33)) ∧
    generatePrime (fun _ => 0) 1 5 7 0 = some (5, 33) := by
  constructor
  · intro rand fuel i
    refine generatePrime_of_prime_candidate rand fuel 4 5 i 5 ?_ (by rw [W64_eq]; decide)
      (by norm_num) (by norm_num) (by norm_num)
    have h1 : sub64 5 4 = 1 := by norm_num [sub64, W64]
    simp only [generateRandomNumber, h1, Nat.mod_one]
    norm_num [W64]
    decide
  · exact generatePrime_of_prime_candidate (fun _ => 0) 0 5 7 0 5
      (by norm_num [generateRandomNumber, generateRandomNumber0, sub64, W64]; decide)
      (by rw [W64_eq]; decide) (by norm_num) (by norm_num) (by norm_num)

end Single

namespace Multiple

theorem drawDistinct_ne (genPrime : Nat → Nat → Nat) (size p : Nat) :
    ∀ fuel k q k', drawDistinct genPrime size p fuel k = some (q, k') → q ≠ p := by
  intro fuel
  induction fuel with
  | zero => intro k q k' h; simp [drawDistinct] at h
  | succ fuel ih =>
    intro k q k' h
    unfold drawDistinct at h
    by_cases hq : genPrime size k = p
    · rw [if_pos hq] at h
      exact ih _ _ _ h
    · rw [if_neg hq] at h
      simp only [Option.some.injEq, Prod.mk.injEq] at h
      rw [← h.1]; exact hq

theorem subtract_one_eq {a r : Nat} (h : subtract a 1 = some r) : r = a - 1 := by
  unfold subtract at h
  split at h
  · simpa using h.symm
  · simp at h

theorem modulus_eq {a b r : Nat} (h : modulus a b = some r) : r = a % b := by
  unfold modulus at h
  split at h
  · simp at h
  · simpa using h.symm

theorem generateKeyPair_spec (DIGIT_BITS : Nat) (genPrime : Nat → Nat → Nat)
    (inverse : Nat → Nat → Nat) (fuel bits : Nat) (keys : RSAKeys)
    (h : generateKeyPair DIGIT_BITS genPrime inverse fuel bits = Outcome.returned keys) :
    keys.n = keys.p * keys.q ∧ keys.p ≠ keys.q ∧
      (keys.e * keys.d) % ((keys.p - 1) * (keys.q - 1)) = 1 := by
  unfold generateKeyPair at h
  simp only at h
  split at h
  · simp at h
  · rename_i q k hdraw
    have hne := drawDistinct_ne _ _ _ _ _ _ _ hdraw
    split at h
    · rename_i p1 q1 hp1 hq1
      have ep1 := subtract_one_eq hp1
      have eq1 := subtract_one_eq hq1
      split at h
      · rename_i ed hed
        have eed := modulus_eq hed
        split at h
        · rename_i hone
          simp only [Outcome.returned.injEq] at h
          subst h
          refine ⟨rfl, fun hpq => hne hpq.symm, ?_⟩
          simp only
          rw [← ep1, ← eq1, ← hone, eed]
          rfl
        · simp at h
      · simp at h
    · simp at h

/-- C9: whenever `generateKeyPair` returns (no assertion fails, no `Integer`
operation traps, the loop for `q` ends), the returned keys satisfy `n = p * q`,
`p ≠ q` and `(e * d) mod ((p-1) * (q-1)) = 1`, whatever values the prime
generator and the inverse computation produced. -/
theorem C9_generateKeyPair_postcondition (DIGIT_BITS : Nat) (genPrime : Nat → Nat → Nat)
    (inverse : Nat → Nat → Nat) (fuel bits : Nat) (keys : RSAKeys)
    (h : generateKeyPair DIGIT_BITS genPrime inverse fuel bits = Outcome.returned keys) :
    keys.n = keys.p * keys.q ∧ keys.p ≠ keys.q ∧
      (keys.e * keys.d) % ((keys.p - 1) * (keys.q - 1)) = 1 :=
  generateKeyPair_spec DIGIT_BITS genPrime inverse fuel bits keys h

theorem C9_generateKeyPair_postcondition_witness :
    generateKeyPair 32 (fun _ k => [11, 11, 13, 7].getD k 0) (fun _ _ => 103) 5 192
        = Outcome.returned { n := 143, e := 7, d := 103, p := 11, q := 13 } ∧
    ((143 : Nat) = 11 * 13 ∧ (11 : Nat) ≠ 13 ∧ (7 * 103) % ((11 - 1) * (13 - 1)) = 1) :=
  ⟨rfl,
   C9_generateKeyPair_postcondition 32 (fun _ k => [11, 11, 13, 7].getD k 0) (fun _ _ => 103)
     5 192 { n := 143, e := 7, d := 103, p := 11, q := 13 } rfl⟩

theorem transformMessageLoop_spec {β : Type} (setPower : Nat → Nat → β → Nat) (e n : Nat)
    (br : β) :
    ∀ message result powered,
      transformMessageLoop setPower e n br message result powered =
        (powered ++ message.takeWhile (fun c => decide (c < n)),
         if ∀ c ∈ message, c < n then
           Outcome.returned (result ++ message.map (fun c => setPower c e br))
         else Outcome.assertionFailed) := by
  intro message
  induction message with
  | nil => intro result powered; simp [transformMessageLoop]
  | cons c rest ih =>
    intro result powered
    unfold transformMessageLoop
    by_cases hc : c < n
    · rw [if_pos hc, ih]
      simp [hc, List.takeWhile_cons]
    · rw [if_neg hc]
      simp [hc, List.takeWhile_cons]

/-- C10: `transformMessage e n message` fails with an assertion whenever some
block of `message` is `≥ n`, and the blocks exponentiated before the failure are
exactly those in front of the first such block (all `< n`), so the offending
block is not exponentiated; when every block is `< n` it returns one output block
per input block, in the same order: the list of `setPower c e br` over the
blocks `c`. -/
theorem C10_transformMessage_guard {β : Type} (barrett : Nat → β)
    (setPower : Nat → Nat → β → Nat) (e n : Nat) (message : List Nat) :
    ((∃ c ∈ message, n ≤ c) →
      (transformMessage barrett setPower e n message).2 = Outcome.assertionFailed ∧
      (transformMessage barrett setPower e n message).1
        = message.takeWhile (fun c => decide (c < n)) ∧
      ∀ c ∈ (transformMessage barrett setPower e n message).1, c < n) ∧
    ((∀ c ∈ message, c < n) →
      (transformMessage barrett setPower e n message).2
        = Outcome.returned (message.map (fun c => setPower c e (barrett n))) ∧
      (message.map (fun c => setPower c e (barrett n))).length = message.length) := by
  unfold transformMessage
  rw [transformMessageLoop_spec]
  constructor
  · rintro ⟨c, hc, hn⟩
    have hnot : ¬ ∀ c ∈ message, c < n := fun hall => absurd (hall c hc) (by omega)
    refine ⟨by simp only [if_neg hnot], by simp, ?_⟩
    intro d hd
    simp only [List.nil_append] at hd
    simpa using (List.mem_takeWhile_imp hd)
  · intro hall
    exact ⟨by simp only [if_pos hall, List.nil_append], by simp⟩

theorem C10_transformMessage_guard_witness :
    ((∃ c ∈ [4, 40, 5], 33 ≤ c) ∧
      (transformMessage (fun n => n) (fun c e n => c ^ e % n) 3 33 [4, 40, 5]).2
        = Outcome.assertionFailed ∧
      (transformMessage (fun n => n) (fun c e n => c ^ e % n) 3 33 [4, 40, 5]).1
        = [4, 40, 5].takeWhile (fun c => decide (c < 33)) ∧
      ∀ c ∈ (transformMessage (fun n => n) (fun c e n => c ^ e % n) 3 33 [4, 40, 5]).1,
        c < 33) ∧
    ((∀ c ∈ [4, 32, 5], c < 33) ∧
      (transformMessage (fun n => n) (fun c e n => c ^ e % n) 3 33 [4, 32, 5]).2
        = Outcome.returned ([4, 32, 5].map (fun c => c ^ 3 % 33)) ∧
      ([4, 32, 5].map (fun c => c ^ 3 % 33)).length = [4, 32, 5].length) :=
  ⟨⟨⟨40, by decide, by decide⟩,
    (C10_transformMessage_guard (fun n => n) (fun c e n => c ^ e % n) 3 33 [4, 40, 5]).1
      ⟨40, by decide, by decide⟩⟩,
   ⟨by decide,
    (C10_transformMessage_guard (fun n => n) (fun c e n => c ^ e % n) 3 33 [4, 32, 5]).2
      (by decide)⟩⟩

end Multiple

namespace Single

/-- The loop of `robustPrimeTest` started at `d` answers true exactly when no
`k` with `d ≤ k ≤ p / 2` divides `p`. -/
theorem robustPrimeTestLoop_iff (p : Nat) :
    ∀ n d, p / 2 + 1 - d = n → 1 ≤ d →
      (robustPrimeTestLoop p d = true ↔ ∀ k, d ≤ k → k ≤ p / 2 → p % k ≠ 0) := by
  intro n
  induction n with
  | zero =>
    intro d hn _
    rw [robustPrimeTestLoop, if_neg (by omega)]
    simp only [true_iff]
    intro k hk1 hk2
    omega
  | succ n ih =>
    intro d hn hd
    rw [robustPrimeTestLoop, if_pos (by omega)]
    by_cases hdiv : p % d = 0
    · rw [if_pos hdiv]
      simp only [Bool.false_eq_true, false_iff]
      intro hall
      exact hall d (le_refl _) (by omega) hdiv
    · rw [if_neg hdiv, ih (d + 1) (by omega) (by omega)]
      constructor
      · intro hall k hk1 hk2
        rcases Nat.eq_or_lt_of_le hk1 with h | h
        · rw [← h]; exact hdiv
        · exact hall k h hk2
      · intro hall k hk1 hk2
        exact hall k (by omega) hk2

theorem robustPrimeTest_iff_prime (p : Nat) (hp : 2 ≤ p) :
    robustPrimeTest p = true ↔ p.Prime := by
  unfold robustPrimeTest
  rw [robustPrimeTestLoop_iff p _ 2 rfl (by norm_num), Nat.prime_def_lt]
  constructor
  · intro hall
    refine ⟨hp, fun m hm hdvd => ?_⟩
    by_contra hne
    obtain ⟨c, hc⟩ := hdvd
    have hm0 : m ≠ 0 := by
      intro h0; rw [h0, zero_mul] at hc; omega
    have hc2 : 2 ≤ c := by
      by_contra hlt
      have : c = 0 ∨ c = 1 := by omega
      rcases this with h | h
      · rw [h, mul_zero] at hc; omega
      · rw [h, mul_one] at hc; omega
    have hle : m * 2 ≤ p := by
      rw [hc]; exact Nat.mul_le_mul_left m hc2
    have hmod : p % m = 0 := by
      rw [hc]; exact Nat.mul_mod_right m c
    exact hall m (by omega) (by omega) hmod
  · rintro ⟨_, hall⟩ k hk1 hk2 hmod
    have := hall k (by omega) (Nat.dvd_of_mod_eq_zero hmod)
    omega

/-- C12: for every `p ≥ 2`, `robustPrimeTest p` returns true exactly when `p`
is prime. -/
theorem C12_robustPrimeTest_iff_prime (p : Nat) (hp : 2 ≤ p) :
    robustPrimeTest p = true ↔ p.Prime :=
  robustPrimeTest_iff_prime p hp

theorem C12_robustPrimeTest_iff_prime_witness :
    (2 ≤ 9973 ∧ (robustPrimeTest 9973 = true ↔ Nat.Prime 9973)) ∧
    (2 ≤ 9991 ∧ (robustPrimeTest 9991 = true ↔ Nat.Prime 9991)) :=
  ⟨⟨by norm_num, C12_robustPrimeTest_iff_prime 9973 (by norm_num)⟩,
   ⟨by norm_num, C12_robustPrimeTest_iff_prime 9991 (by norm_num)⟩⟩

/-- C13: for all 64-bit `a` and `b`, `greatestCommonDivisor a b` (a total
function: the second argument decreases) is the greatest common divisor of `a`
and `b`, with `greatestCommonDivisor a 0 = a`. -/
theorem C13_greatestCommonDivisor_is_gcd (a b : Nat) (_ha : a < W64) (_hb : b < W64) :
    greatestCommonDivisor a b = Nat.gcd a b ∧ greatestCommonDivisor a 0 = a := by
  refine ⟨greatestCommonDivisor_eq_gcd b a, ?_⟩
  rw [greatestCommonDivisor_eq_gcd, Nat.gcd_zero_right]

theorem C13_greatestCommonDivisor_is_gcd_witness :
    (18446744073709551615 < W64 ∧ 4294967295 < W64) ∧
    (greatestCommonDivisor 18446744073709551615 4294967295
        = Nat.gcd 18446744073709551615 4294967295 ∧
      greatestCommonDivisor 18446744073709551615 0 = 18446744073709551615) :=
  ⟨⟨by norm_num [W64], by norm_num [W64]⟩,
   C13_greatestCommonDivisor_is_gcd 18446744073709551615 4294967295 (by norm_num [W64])
     (by norm_num [W64])⟩

/-- The ranged draw: for 64-bit `min < max` the sum `min + raw % (max - min)` is
below `max`, so it does not wrap. -/
theorem generateRandomNumber_range (rand : Nat → Nat) (i min max : Nat) (hlt : min < max)
    (hmax : max < W64) :
    (generateRandomNumber rand i min max).1
        = min + (generateRandomNumber0 rand i).1 % (max - min) ∧
      min + (generateRandomNumber0 rand i).1 % (max - min) < max := by
  have hmod : (generateRandomNumber0 rand i).1 % (max - min) < max - min :=
    Nat.mod_lt _ (by omega)
  unfold generateRandomNumber
  simp only
  rw [sub64_of_le hlt.le hmax, Nat.mod_eq_of_lt (by omega)]
  exact ⟨rfl, by omega⟩

/-- C14: for all 64-bit `min < max` and every raw random value,
`generateRandomNumber min max` returns `r` with `min ≤ r < max`, the sum
`min + raw % (max - min)` staying below `2^64`; in `testPrime` the draw `a`
satisfies `2 ≤ a < p` for every 64-bit `p ≥ 3`. -/
theorem C14_generateRandomNumber_in_range (rand : Nat → Nat) (i : Nat) :
    (∀ min max : Nat, min < max → max < W64 →
      min + (generateRandomNumber0 rand i).1 % (max - min) < W64 ∧
      min ≤ (generateRandomNumber rand i min max).1 ∧
      (generateRandomNumber rand i min max).1 < max) ∧
    (∀ p : Nat, 3 ≤ p → p < W64 →
      2 ≤ (generateRandomNumber rand i 2 p).1 ∧ (generateRandomNumber rand i 2 p).1 < p) := by
  constructor
  · intro min max hlt hmax
    obtain ⟨h1, h2⟩ := generateRandomNumber_range rand i min max hlt hmax
    rw [h1]
    exact ⟨by omega, by omega, h2⟩
  · intro p hp3 hp
    exact generateRandomNumber_two rand i p hp3 hp

theorem C14_generateRandomNumber_in_range_witness :
    ((256 < 65536 ∧ 65536 < W64) ∧
      256 + (generateRandomNumber0 (fun k => 1103515245 * k + 12345) 0).1 % (65536 - 256) < W64 ∧
      256 ≤ (generateRandomNumber (fun k => 1103515245 * k + 12345) 0 256 65536).1 ∧
      (generateRandomNumber (fun k => 1103515245 * k + 12345) 0 256 65536).1 < 65536) ∧
    ((3 ≤ 3 ∧ 3 < W64) ∧
      2 ≤ (generateRandomNumber (fun k => 1103515245 * k + 12345) 0 2 3).1 ∧
      (generateRandomNumber (fun k => 1103515245 * k + 12345) 0 2 3).1 < 3) :=
  ⟨⟨⟨by norm_num, by norm_num [W64]⟩,
    (C14_generateRandomNumber_in_range (fun k => 1103515245 * k + 12345) 0).1 256 65536
      (by norm_num) (by norm_num [W64])⟩,
   ⟨⟨by norm_num, by norm_num [W64]⟩,
    (C14_generateRandomNumber_in_range (fun k => 1103515245 * k + 12345) 0).2 3
      (by norm_num) (by norm_num [W64])⟩⟩

end Single

namespace Single

theorem calculatePower_overflow_case : calculatePower 65536 4 140737488355327 = 0 := by
  unfold calculatePower
  rw [calculatePowerLoop_step _ _ _ _ (by norm_num)]
  norm_num [W64]
  rw [calculatePowerLoop_step _ _ _ _ (by norm_num)]
  norm_num [W64]
  rw [calculatePowerLoop_step _ _ _ _ (by norm_num)]
  norm_num [W64, calculatePowerLoop_zero]

/-- C17 (evaluation of the code): `b = 2^16`, `e = 4`, `m = 2^47 - 1` satisfy
the condition of the comment on `calculatePower` (`b*b` and `b*m` are below the
largest 64-bit value), yet the second squaring `2^32 * 2^32` wraps to zero and
`calculatePower` returns `0`, while `b^e mod m = 131072`. -/
theorem C17_calculatePower_comment_fails :
    (65536 < W64 ∧ 4 < W64 ∧ 140737488355327 < W64 ∧ 140737488355327 ≠ 0 ∧
      65536 * 65536 < W64 - 1 ∧ 65536 * 140737488355327 < W64 - 1) ∧
    W64 ≤ (65536 * 65536 % W64 % 140737488355327) * (65536 * 65536 % W64 % 140737488355327) ∧
    calculatePower 65536 4 140737488355327 = 0 ∧
    65536 ^ 4 % 140737488355327 = 131072 :=
  ⟨by norm_num [W64], by norm_num [W64], calculatePower_overflow_case, by norm_num⟩

end Single

namespace Single

theorem MIN_PRIME_eq : MIN_PRIME = 256 := by decide

theorem MAX_PRIME_eq : MAX_PRIME = 65536 := by decide

theorem or_one_eq (r : Nat) : r ||| 1 = 2 * (r / 2) + 1 := by
  have h1 : (r ||| 1) % 2 = 1 := Nat.or_mod_two_eq_one.mpr (Or.inr rfl)
  have h2 : (r ||| 1) / 2 = r / 2 := by rw [Nat.or_div_two]; simp
  omega

/-- A value returned by `generatePrime` is one of its candidates: a ranged draw
with the low bit set. -/
theorem generatePrime_candidate (rand : Nat → Nat) (min max : Nat) :
    ∀ fuel i p i', generatePrime rand fuel min max i = some (p, i') →
      ∃ j, p = (generateRandomNumber rand j min max).1 ||| 1 := by
  intro fuel
  induction fuel with
  | zero => intro i p i' h; simp [generatePrime] at h
  | succ fuel ih =>
    intro i p i' h
    unfold generatePrime at h
    simp only at h
    split at h
    · exact ih _ _ _ h
    · split at h
      · simp only [Option.some.injEq, Prod.mk.injEq] at h
        exact ⟨i, h.1.symm⟩
      · exact ih _ _ _ h

/-- Range of the values `generatePrime MIN_PRIME MAX_PRIME` can return. -/
theorem generatePrime_key_range (rand : Nat → Nat) (fuel i p i' : Nat)
    (h : generatePrime rand fuel MIN_PRIME MAX_PRIME i = some (p, i')) :
    257 ≤ p ∧ p ≤ 65535 := by
  obtain ⟨j, hj⟩ := generatePrime_candidate rand _ _ fuel i p i' h
  rw [MIN_PRIME_eq, MAX_PRIME_eq] at hj
  obtain ⟨h1, h2⟩ := generateRandomNumber_range rand j 256 65536 (by norm_num)
    (by norm_num [W64])
  rw [← h1] at h2
  have hge : 256 ≤ (generateRandomNumber rand j 256 65536).1 := by rw [h1]; omega
  rw [or_one_eq] at hj
  omega

theorem pack_block_lt :
    ∀ t : List Nat, (∀ b ∈ t, b < 256) → ∀ m ∈ pack t, m < 2 ^ 16
  | [], _ => by simp [pack]
  | [a], h => by
    have ha : a < 256 := h a (by simp)
    simp only [pack, List.mem_singleton, forall_eq]
    omega
  | a :: b :: rest, h => by
    have ha : a < 256 := h a (by simp)
    have hb : b < 256 := h b (by simp)
    have ih := pack_block_lt rest (fun c hc => h c (by simp [hc]))
    intro m hm
    simp only [pack, List.mem_cons] at hm
    rcases hm with hm | hm
    · rw [hm]
      refine Nat.or_lt_two_pow (by omega) ?_
      rw [Nat.shiftLeft_eq]; omega
    · exact ih m hm

/-- C18: for all `p` and `q` that `generatePrime(MIN_PRIME, MAX_PRIME)` can
return and every byte string `t`, every block `m` of `pack t` satisfies
`m < 2^16 ≤ (p-1)*(q-1) < p*q < 2^32`, so each block is below the modulus it is
exponentiated with. -/
theorem C18_blocks_below_modulus (rand rand' : Nat → Nat) (fuel fuel' i j p q i' j' : Nat)
    (hp : generatePrime rand fuel MIN_PRIME MAX_PRIME i = some (p, i'))
    (hq : generatePrime rand' fuel' MIN_PRIME MAX_PRIME j = some (q, j'))
    (t : List Nat) (hbytes : ∀ b ∈ t, b < 256) :
    ∀ m ∈ pack t,
      m < 2 ^ 16 ∧ 2 ^ 16 ≤ (p - 1) * (q - 1) ∧ (p - 1) * (q - 1) < p * q ∧ p * q < 2 ^ 32 := by
  obtain ⟨hp1, hp2⟩ := generatePrime_key_range rand fuel i p i' hp
  obtain ⟨hq1, hq2⟩ := generatePrime_key_range rand' fuel' j q j' hq
  intro m hm
  refine ⟨pack_block_lt t hbytes m hm, ?_, ?_, ?_⟩
  · have : 256 * 256 ≤ (p - 1) * (q - 1) := Nat.mul_le_mul (by omega) (by omega)
    omega
  · have h1 : (p - 1) * (q - 1) ≤ (p - 1) * q := Nat.mul_le_mul_left _ (by omega)
    have h2 : (p - 1) * q < p * q := Nat.mul_lt_mul_of_pos_right (by omega) (by omega)
    omega
  · have : p * q ≤ 65535 * 65535 := Nat.mul_le_mul hp2 hq2
    omega

theorem C18_blocks_below_modulus_witness :
    (generatePrime (fun _ => 1) 1 MIN_PRIME MAX_PRIME 0 = some (257, 33) ∧
      generatePrime (fun _ => 3) 1 MIN_PRIME MAX_PRIME 0 = some (283, 33) ∧
      ∀ b ∈ [0x52, 0x53, 0x41], b < 256) ∧
    ∀ m ∈ pack [0x52, 0x53, 0x41],
      m < 2 ^ 16 ∧ 2 ^ 16 ≤ (257 - 1) * (283 - 1) ∧ (257 - 1) * (283 - 1) < 257 * 283 ∧
        257 * 283 < 2 ^ 32 :=
  have hp : generatePrime (fun _ => 1) 1 MIN_PRIME MAX_PRIME 0 = some (257, 33) := by
    rw [MIN_PRIME_eq, MAX_PRIME_eq]
    exact generatePrime_of_prime_candidate (fun _ => 1) 0 256 65536 0 257
      (by norm_num [generateRandomNumber, generateRandomNumber0, sub64, W64]; decide)
      (by rw [W64_eq]; decide) (by norm_num) (by norm_num) (by norm_num)
  have hq : generatePrime (fun _ => 3) 1 MIN_PRIME MAX_PRIME 0 = some (283, 33) := by
    rw [MIN_PRIME_eq, MAX_PRIME_eq]
    exact generatePrime_of_prime_candidate (fun _ => 3) 0 256 65536 0 283
      (by norm_num [generateRandomNumber, generateRandomNumber0, sub64, W64]; decide)
      (by rw [W64_eq]; decide) (by norm_num) (by norm_num) (by norm_num)
  ⟨⟨hp, hq, by decide⟩,
   C18_blocks_below_modulus (fun _ => 1) (fun _ => 3) 1 1 0 0 257 283 33 33 hp hq
     [0x52, 0x53, 0x41] (by decide)⟩

end Single

namespace Single

theorem testPrimeLoop_succ (rand : Nat → Nat) (tests p i : Nat) :
    testPrimeLoop rand (tests + 1) p i =
      if trialPasses p (generateRandomNumber rand i 2 p).1 = true then
        testPrimeLoop rand tests p (i + 3)
      else (false, i + 3) := by
  have hidx : (generateRandomNumber rand i 2 p).2 = i + 3 := rfl
  rw [testPrimeLoop]
  simp only [hidx, trialPasses]
  by_cases hg : greatestCommonDivisor (generateRandomNumber rand i 2 p).1 p = 1
  · simp only [hg, if_true, decide_eq_true_eq]
  · simp only [hg, if_false, Bool.false_eq_true]

/-- Short circuit: when round `k` is the first one whose draw fails, the loop
returns false right after that round (three `rand()` values per round). -/
theorem testPrimeLoop_first_failure (rand : Nat → Nat) (p : Nat) :
    ∀ tests i k, k < tests →
      (∀ j, j < k → trialPasses p (generateRandomNumber rand (i + 3 * j) 2 p).1 = true) →
      trialPasses p (generateRandomNumber rand (i + 3 * k) 2 p).1 = false →
      testPrimeLoop rand tests p i = (false, i + 3 * (k + 1)) := by
  intro tests
  induction tests with
  | zero => intro i k hk; omega
  | succ tests ih =>
    intro i k hk hpass hfail
    rw [testPrimeLoop_succ]
    rcases Nat.eq_zero_or_pos k with h0 | hpos
    · subst h0
      rw [Nat.mul_zero, Nat.add_zero] at hfail
      rw [if_neg (by rw [hfail]; exact Bool.false_ne_true)]
    · have h0 := hpass 0 hpos
      rw [Nat.mul_zero, Nat.add_zero] at h0
      rw [if_pos h0]
      have e1 : i + 3 + 3 * (k - 1) = i + 3 * k := by omega
      have e2 : i + 3 + 3 * (k - 1 + 1) = i + 3 * (k + 1) := by omega
      rw [← e2]
      apply ih (i + 3) (k - 1) (by omega)
      · intro j hj
        have := hpass (j + 1) (by omega)
        rw [show i + 3 * (j + 1) = i + 3 + 3 * j by ring] at this
        exact this
      · rw [e1]; exact hfail

theorem testPrimeLoop_some_failure (rand : Nat → Nat) (p : Nat) :
    ∀ tests i,
      (∃ k, k < tests ∧ trialPasses p (generateRandomNumber rand (i + 3 * k) 2 p).1 = false) →
      (testPrimeLoop rand tests p i).1 = false := by
  intro tests
  induction tests with
  | zero => rintro i ⟨k, hk, _⟩; omega
  | succ tests ih =>
    rintro i ⟨k, hk, hfail⟩
    rw [testPrimeLoop_succ]
    by_cases h0 : trialPasses p (generateRandomNumber rand i 2 p).1 = true
    · rw [if_pos h0]
      have hk0 : k ≠ 0 := by
        intro hz
        rw [hz, Nat.mul_zero, Nat.add_zero, h0] at hfail
        exact Bool.noConfusion hfail
      apply ih (i + 3)
      refine ⟨k - 1, by omega, ?_⟩
      rw [show i + 3 + 3 * (k - 1) = i + 3 * k by omega]
      exact hfail
    · rw [if_neg h0]

/-- Every composite `p ≥ 4` has a value in `[2, p)` on which a round fails: its
least prime factor, which is not coprime to `p`. -/
theorem exists_failing_draw (p : Nat) (hp4 : 4 ≤ p) (hcomp : ¬ p.Prime) :
    ∃ a, 2 ≤ a ∧ a < p ∧ trialPasses p a = false := by
  refine ⟨p.minFac, (Nat.minFac_prime (by omega)).two_le,
    (Nat.not_prime_iff_minFac_lt (by omega)).mp hcomp, ?_⟩
  unfold trialPasses
  rw [greatestCommonDivisor_eq_gcd, Nat.gcd_eq_left (Nat.minFac_dvd p)]
  rw [if_neg (Nat.minFac_prime (by omega)).one_lt.ne.symm]

/-- The stream whose first ranged draw at position `i` is `a`. -/
theorem generateRandomNumber_forced (i p a : Nat) (ha2 : 2 ≤ a) (hap : a < p) (hp : p < W64) :
    (generateRandomNumber (fun j => if j = i then a - 2 else 1) i 2 p).1 = a := by
  have h0 : (generateRandomNumber0 (fun j => if j = i then a - 2 else 1) i).1 = a - 2 := by
    unfold generateRandomNumber0
    simp only [if_true, show i + 1 ≠ i by omega, show i + 2 ≠ i by omega, if_false]
    have h1 : (1 : Nat) % W64 = 1 := Nat.mod_eq_of_lt (by rw [W64_eq]; norm_num)
    have h2 : (a - 2) % W64 = a - 2 := Nat.mod_eq_of_lt (by omega)
    rw [h1, h2, Nat.mul_one, Nat.mul_one, h2, h2]
  obtain ⟨h1, _⟩ := generateRandomNumber_range (fun j => if j = i then a - 2 else 1) i 2 p
    (by omega) hp
  rw [h1, h0, Nat.mod_eq_of_lt (by omega)]
  omega

/-- C19: for every composite 64-bit `p ≥ 4` there is a value `a` in `[2, p)` on
which a round of `testPrime` fails; `testPrime p` returns false as soon as one
of its 10 rounds draws such a value (right after the first failing round, and in
any case when some round fails); hence for every composite there is a sequence
of draws on which it is rejected. -/
theorem C19_testPrime_rejects_composites (p : Nat) (hp4 : 4 ≤ p) (hp : p < W64)
    (hcomp : ¬ p.Prime) :
    (∃ a, 2 ≤ a ∧ a < p ∧ trialPasses p a = false) ∧
    (∀ (rand : Nat → Nat) (i k : Nat), k < 10 →
      (∀ j, j < k → trialPasses p (generateRandomNumber rand (i + 3 * j) 2 p).1 = true) →
      trialPasses p (generateRandomNumber rand (i + 3 * k) 2 p).1 = false →
      testPrime rand p i = (false, i + 3 * (k + 1))) ∧
    (∀ (rand : Nat → Nat) (i : Nat),
      (∃ k, k < 10 ∧ trialPasses p (generateRandomNumber rand (i + 3 * k) 2 p).1 = false) →
      (testPrime rand p i).1 = false) ∧
    (∀ i, ∃ rand : Nat → Nat, (testPrime rand p i).1 = false) := by
  have hunf : ∀ (rand : Nat → Nat) (i : Nat), testPrime rand p i = testPrimeLoop rand 10 p i := by
    intro rand i
    unfold testPrime
    rw [if_neg (by omega)]
  refine ⟨exists_failing_draw p hp4 hcomp, ?_, ?_, ?_⟩
  · intro rand i k hk hpass hfail
    rw [hunf]
    exact testPrimeLoop_first_failure rand p 10 i k hk hpass hfail
  · intro rand i hex
    rw [hunf]
    exact testPrimeLoop_some_failure rand p 10 i hex
  · intro i
    obtain ⟨a, ha2, hap, hfail⟩ := exists_failing_draw p hp4 hcomp
    refine ⟨fun j => if j = i then a - 2 else 1, ?_⟩
    rw [hunf]
    apply testPrimeLoop_some_failure
    refine ⟨0, by norm_num, ?_⟩
    rw [Nat.mul_zero, Nat.add_zero, generateRandomNumber_forced i p a ha2 hap hp]
    exact hfail

theorem trialPasses_nine_three : trialPasses 9 3 = false := by
  unfold trialPasses
  rw [greatestCommonDivisor_eq_gcd]
  norm_num

theorem draw_ones_nine (i : Nat) : (generateRandomNumber (fun _ => 1) i 2 9).1 = 3 := by
  norm_num [generateRandomNumber, generateRandomNumber0, sub64, W64]

theorem C19_testPrime_rejects_composites_witness :
    (4 ≤ 9 ∧ 9 < W64 ∧ ¬ Nat.Prime 9) ∧
    (∃ a, 2 ≤ a ∧ a < 9 ∧ trialPasses 9 a = false) ∧
    testPrime (fun _ => 1) 9 0 = (false, 0 + 3 * (0 + 1)) ∧
    (testPrime (fun _ => 1) 9 0).1 = false :=
  have h := C19_testPrime_rejects_composites 9 (by norm_num) (by norm_num [W64]) (by norm_num)
  have hfail : trialPasses 9 (generateRandomNumber (fun _ => 1) (0 + 3 * 0) 2 9).1 = false := by
    rw [draw_ones_nine]; exact trialPasses_nine_three
  ⟨⟨by norm_num, by norm_num [W64], by norm_num⟩, h.1,
   h.2.1 (fun _ => 1) 0 0 (by norm_num) (fun j hj => absurd hj (Nat.not_lt_zero j)) hfail,
   h.2.2.1 (fun _ => 1) 0 ⟨0, by norm_num, hfail⟩⟩

end Single

namespace Single

theorem calculateInverseTrace_zero (u1 u3 v1 : Nat) : calculateInverseTrace u1 u3 v1 0 = [] := by
  rw [calculateInverseTrace]; simp

theorem calculateInverseTrace_step (u1 u3 v1 v3 : Nat) (h : v3 ≠ 0) :
    calculateInverseTrace u1 u3 v1 v3 =
      { product := u3 / v3 * v1, sum := u1 + (u3 / v3 * v1) % W64, u1 := v1,
        v1 := (u1 + (u3 / v3 * v1) % W64) % W64 } ::
        calculateInverseTrace v1 v3 ((u1 + (u3 / v3 * v1) % W64) % W64) (u3 % v3) := by
  rw [calculateInverseTrace]; simp [h]

theorem calculateInverseExactLoop_zero (v u1 u3 v1 : Nat) (odd : Bool) :
    calculateInverseExactLoop v u1 u3 v1 0 odd
      = if odd then (v : Int) - (u1 : Int) else (u1 : Int) := by
  rw [calculateInverseExactLoop]; simp

theorem calculateInverseExactLoop_step (v u1 u3 v1 v3 : Nat) (odd : Bool) (h : v3 ≠ 0) :
    calculateInverseExactLoop v u1 u3 v1 v3 odd =
      calculateInverseExactLoop v v1 v3 (u1 + u3 / v3 * v1) (u3 % v3) (!odd) := by
  rw [calculateInverseExactLoop]; simp [h]

/-- Under the invariant `u1 * v3 + v1 * u3 = v` with `u1, v1 ≤ v < 2^64`, every
value computed by the remaining iterations is at most `v`, and the 64-bit loop
agrees with the unbounded one. -/
theorem calculateInverseLoop_bounded (v : Nat) (hv : v < W64) :
    ∀ v3 u1 u3 v1 odd, u1 ≤ v → v1 ≤ v → u1 * v3 + v1 * u3 = v →
      (∀ s ∈ calculateInverseTrace u1 u3 v1 v3,
        s.product ≤ v ∧ s.sum ≤ v ∧ s.u1 ≤ v ∧ s.v1 ≤ v) ∧
      ((calculateInverseLoop v u1 u3 v1 v3 odd : Nat) : Int)
        = calculateInverseExactLoop v u1 u3 v1 v3 odd := by
  intro v3
  induction v3 using Nat.strong_induction_on with
  | _ v3 ih =>
    intro u1 u3 v1 odd hu1 hv1 hlin
    by_cases h3 : v3 = 0
    · subst h3
      rw [calculateInverseTrace_zero, calculateInverseLoop_zero, calculateInverseExactLoop_zero]
      refine ⟨by simp, ?_⟩
      cases odd
      · simp
      · simp only [if_true, sub64_of_le hu1 hv]
        exact Int.ofNat_sub hu1
    · obtain ⟨hlin', hle⟩ := inverse_step_linear hlin h3
      have hprod : u3 / v3 * v1 ≤ v := le_trans (Nat.le_add_left _ _) hle
      have hw : (u3 / v3 * v1) % W64 = u3 / v3 * v1 := Nat.mod_eq_of_lt (by omega)
      have ht : (u1 + u3 / v3 * v1) % W64 = u1 + u3 / v3 * v1 := Nat.mod_eq_of_lt (by omega)
      rw [calculateInverseTrace_step _ _ _ _ h3, calculateInverseLoop_step _ _ _ _ _ _ h3,
        calculateInverseExactLoop_step _ _ _ _ _ _ h3, hw, ht]
      obtain ⟨ihT, ihE⟩ := ih (u3 % v3) (Nat.mod_lt _ (Nat.pos_of_ne_zero h3)) v1 v3
        (u1 + u3 / v3 * v1) (!odd) hv1 hle hlin'
      refine ⟨?_, ihE⟩
      intro s hs
      rcases List.mem_cons.mp hs with h | h
      · subst h
        exact ⟨hprod, hle, hv1, hle⟩
      · exact ihT s h

/-- C20: for all 64-bit `u` and `v` with `v ≥ 1`, every intermediate value of
`calculateInverse u v` (the product `q*v1`, the sum `u1 + w`, and `u1` and `v1`
after each iteration) is at most `v`, so the wrapping 64-bit computation equals
the same algorithm over unbounded numbers, and the final `v - u1` does not
underflow (the unbounded result is not negative). -/
theorem C20_calculateInverse_no_overflow (u v : Nat) (_hu : u < W64) (hv : v < W64)
    (hv1 : 1 ≤ v) :
    (∀ s ∈ calculateInverseTrace 1 u 0 v,
      s.product ≤ v ∧ s.sum ≤ v ∧ s.u1 ≤ v ∧ s.v1 ≤ v) ∧
    ((calculateInverse u v : Nat) : Int) = calculateInverseExact u v ∧
    0 ≤ calculateInverseExact u v := by
  obtain ⟨hT, hE⟩ := calculateInverseLoop_bounded v hv v 1 u 0 false hv1 (Nat.zero_le _)
    (by ring)
  refine ⟨hT, hE, ?_⟩
  unfold calculateInverseExact
  rw [← hE]
  exact Int.natCast_nonneg _

theorem C20_calculateInverse_no_overflow_witness :
    (18446744073709551557 < W64 ∧ 18446744073709551615 < W64 ∧ 1 ≤ 18446744073709551615) ∧
    ((∀ s ∈ calculateInverseTrace 1 18446744073709551557 0 18446744073709551615,
      s.product ≤ 18446744073709551615 ∧ s.sum ≤ 18446744073709551615 ∧
        s.u1 ≤ 18446744073709551615 ∧ s.v1 ≤ 18446744073709551615) ∧
    ((calculateInverse 18446744073709551557 18446744073709551615 : Nat) : Int)
      = calculateInverseExact 18446744073709551557 18446744073709551615 ∧
    0 ≤ calculateInverseExact 18446744073709551557 18446744073709551615) :=
  ⟨⟨by norm_num [W64], by norm_num [W64], by norm_num⟩,
   C20_calculateInverse_no_overflow 18446744073709551557 18446744073709551615
     (by norm_num [W64]) (by norm_num [W64]) (by norm_num)⟩

end Single

namespace Multiple

theorem divideDigits_spec (B d : Nat) (hd : d ≠ 0) :
    ∀ n : List Nat,
      (divideDigits B d n).2 < d ∧
      value B (divideDigits B d n).1 * d + (divideDigits B d n).2 = value B n := by
  intro n
  induction n with
  | nil => exact ⟨Nat.pos_of_ne_zero hd, by simp [divideDigits, value]⟩
  | cons x xs ih =>
    obtain ⟨_, hval⟩ := ih
    refine ⟨Nat.mod_lt _ (Nat.pos_of_ne_zero hd), ?_⟩
    simp only [divideDigits, value]
    have hdm := Nat.div_add_mod ((divideDigits B d xs).2 * B + x) d
    calc (((divideDigits B d xs).2 * B + x) / d + B * value B (divideDigits B d xs).1) * d
          + ((divideDigits B d xs).2 * B + x) % d
        = (d * (((divideDigits B d xs).2 * B + x) / d) + ((divideDigits B d xs).2 * B + x) % d)
          + B * (value B (divideDigits B d xs).1 * d) := by ring
      _ = ((divideDigits B d xs).2 * B + x) + B * (value B (divideDigits B d xs).1 * d) := by
          rw [hdm]
      _ = x + B * (value B (divideDigits B d xs).1 * d + (divideDigits B d xs).2) := by ring
      _ = x + B * value B xs := by rw [hval]

/-- Each quotient digit of the long division is a digit: below the base, when the
digits of the dividend are. -/
theorem divideDigits_digits (B d : Nat) (hd : d ≠ 0) :
    ∀ n : List Nat, (∀ x ∈ n, x < B) → ∀ k ∈ (divideDigits B d n).1, k < B := by
  intro n
  induction n with
  | nil => intro _ k hk; simp [divideDigits] at hk
  | cons x xs ih =>
    intro hn k hk
    simp only [divideDigits, List.mem_cons] at hk
    rcases hk with hk | hk
    · have hx : x < B := hn x (by simp)
      have hr : (divideDigits B d xs).2 < d := (divideDigits_spec B d hd xs).1
      rw [hk, Nat.div_lt_iff_lt_mul (Nat.pos_of_ne_zero hd)]
      have h1 : ((divideDigits B d xs).2 + 1) * B ≤ d * B := Nat.mul_le_mul_right B hr
      have h2 : ((divideDigits B d xs).2 + 1) * B = (divideDigits B d xs).2 * B + B := by ring
      have h3 : B * d = d * B := Nat.mul_comm _ _
      omega
    · exact ih (fun y hy => hn y (by simp [hy])) k hk

/-- C15: for all multi-precision Integers `n` and `d` (digit buffers in base `B`)
with `d ≠ 0`, dividing `n` by `d` succeeds and gives a quotient `f` and a
remainder `r` with `r < d` and `f * d + r = n`, the two assertions of
`testDivisionSpeed`. -/
theorem C15_division_quotient_remainder (B : Nat) (n d : List Nat) (hd : value B d ≠ 0) :
    ∃ f r, setFraction B n d = some (f, r) ∧ r < value B d ∧
      value B f * value B d + r = value B n := by
  refine ⟨(divideDigits B (value B d) n).1, (divideDigits B (value B d) n).2, ?_, ?_⟩
  · unfold setFraction
    rw [if_neg hd]
  · exact divideDigits_spec B (value B d) hd n

theorem C15_division_quotient_remainder_witness :
    value 10 [3, 2] ≠ 0 ∧
    ∃ f r, setFraction 10 [7, 3, 9, 1] [3, 2] = some (f, r) ∧ r < value 10 [3, 2] ∧
      value 10 f * value 10 [3, 2] + r = value 10 [7, 3, 9, 1] :=
  ⟨by decide, C15_division_quotient_remainder 10 [7, 3, 9, 1] [3, 2] (by decide)⟩

theorem addCarry_value (B : Nat) :
    ∀ (x y : List Nat) (c : Nat),
      value B (addCarry B x y c) = value B x + value B y + c := by
  intro x
  induction x with
  | nil =>
    intro y
    induction y with
    | nil =>
      intro c
      unfold addCarry
      by_cases hc : c = 0
      · simp [hc, value]
      · simp [hc, value]
    | cons y ys ihy =>
      intro c
      unfold addCarry
      simp only [value]
      rw [ihy]
      have := Nat.mod_add_div (y + c) B
      simp only [value] at *
      linarith [Nat.mod_add_div (y + c) B]
  | cons x xs ihx =>
    intro y c
    cases y with
    | nil =>
      unfold addCarry
      simp only [value]
      rw [ihx]
      simp only [value]
      linarith [Nat.mod_add_div (x + c) B]
    | cons y ys =>
      unfold addCarry
      simp only [value]
      rw [ihx]
      linarith [Nat.mod_add_div (x + y + c) B]

theorem add_example :
    add (2 ^ 32) [0x6FEBC427, 0xFFFFFFEC, 0xFFFFFFFF, 0xFFFFFFFF, 0x31EB3579] [0x90143BDA, 0x13]
      = [0x00000001, 0x00000000, 0x00000000, 0x00000000, 0x31EB357A] := by
  simp [add, addCarry]

/-- C16: for all multi-precision Integers `x` and `y` (digit buffers in base `B`),
`x.add(y)` denotes the exact sum `x + y`, carries propagating across any number
of digits; in base `2^32`,
`0x31EB3579FFFFFFFFFFFFFFFFFFFFFFEC6FEBC427 + 0x1390143BDA
  = 0x31EB357A00000000000000000000000000000001`, the case of `testAddition`. -/
theorem C16_add_is_exact_sum :
    (∀ (B : Nat) (x y : List Nat), value B (add B x y) = value B x + value B y) ∧
    (value (2 ^ 32) [0x6FEBC427, 0xFFFFFFEC, 0xFFFFFFFF, 0xFFFFFFFF, 0x31EB3579]
        = 0x31EB3579FFFFFFFFFFFFFFFFFFFFFFEC6FEBC427 ∧
      value (2 ^ 32) [0x90143BDA, 0x13] = 0x1390143BDA ∧
      add (2 ^ 32) [0x6FEBC427, 0xFFFFFFEC, 0xFFFFFFFF, 0xFFFFFFFF, 0x31EB3579]
          [0x90143BDA, 0x13]
        = [0x00000001, 0x00000000, 0x00000000, 0x00000000, 0x31EB357A] ∧
      value (2 ^ 32) [0x00000001, 0x00000000, 0x00000000, 0x00000000, 0x31EB357A]
        = 0x31EB357A00000000000000000000000000000001) :=
  ⟨fun B x y => by unfold add; rw [addCarry_value, Nat.add_zero],
   by decide, by decide, add_example, by decide⟩

end Multiple

namespace Multiple

/-- A product `e * d` that leaves remainder 1 modulo `phi` forces `e` to be
coprime to `phi`. -/
theorem coprime_of_mul_mod_eq_one {e d phi : Nat} (h : (e * d) % phi = 1) : Nat.gcd e phi = 1 := by
  have hg1 : Nat.gcd e phi ∣ e * d := Dvd.dvd.mul_right (Nat.gcd_dvd_left e phi) d
  have hg2 : Nat.gcd e phi ∣ phi := Nat.gcd_dvd_right e phi
  have hg3 : Nat.gcd e phi ∣ (e * d) % phi := (Nat.dvd_mod_iff hg2).mpr hg1
  rw [h] at hg3
  exact Nat.dvd_one.mp hg3

/-- With `e` not coprime to `phi`, `generateKeyPair` ends in its assertion
`ed == 1`, whatever the inverse computation returned; no further draw is made. -/
theorem generateKeyPair_not_coprime (DIGIT_BITS : Nat) (genPrime : Nat → Nat → Nat)
    (inverse : Nat → Nat → Nat) (fuel bits q k : Nat)
    (hdraw : drawDistinct genPrime (bits / DIGIT_BITS) (genPrime (bits / DIGIT_BITS) 0) fuel 1
      = some (q, k))
    (hp : 2 ≤ genPrime (bits / DIGIT_BITS) 0) (hq : 2 ≤ q)
    (hgcd : Nat.gcd (genPrime (bits / DIGIT_BITS) k)
      ((genPrime (bits / DIGIT_BITS) 0 - 1) * (q - 1)) ≠ 1) :
    generateKeyPair DIGIT_BITS genPrime inverse fuel bits = Outcome.assertionFailed := by
  have hphi : (genPrime (bits / DIGIT_BITS) 0 - 1) * (q - 1) ≠ 0 :=
    Nat.mul_ne_zero (by omega) (by omega)
  unfold generateKeyPair
  simp only [hdraw, subtract, setProduct, modulus]
  rw [if_pos (by omega), if_pos (by omega)]
  simp only [if_neg hphi]
  rw [if_neg (fun h => hgcd (coprime_of_mul_mod_eq_one h))]

end Multiple

namespace Single

/-- With `e` not coprime to `(p-1)*(q-1)`, one of the two assertions of `main`
on `e` fails. -/
theorem mainPrivateKey_not_coprime (p q e : Nat) (hp1 : 1 ≤ p) (hp : p < W64) (hq1 : 1 ≤ q)
    (hq : q < W64) (hgcd : Nat.gcd e ((p - 1) * (q - 1)) ≠ 1) : mainPrivateKey p q e = none := by
  unfold mainPrivateKey
  rw [sub64_of_le hp1 hp, sub64_of_le hq1 hq, greatestCommonDivisor_eq_gcd,
    greatestCommonDivisor_eq_gcd]
  by_cases h1 : Nat.gcd e (p - 1) = 1
  · rw [if_pos h1]
    by_cases h2 : Nat.gcd e (q - 1) = 1
    · exact absurd (Nat.Coprime.mul_right h1 h2) hgcd
    · rw [if_neg h2]
  · rw [if_neg h1]

end Single

namespace Multiple

/-- C11 (counterexample): the generator yields `p = 11`, `q = 13`, then `e = 5`,
which is not coprime to `phi = 120`, and would yield the coprime `7` on a further
draw; `generateKeyPair` does not draw again, it fails at `assert(ed == 1)`. -/
theorem C11_no_retry_counterexample :
    Nat.gcd 5 ((11 - 1) * (13 - 1)) ≠ 1 ∧ Nat.gcd 7 ((11 - 1) * (13 - 1)) = 1 ∧
    generateKeyPair 32 (fun _ k => [11, 13, 5, 7].getD k 0) (fun _ _ => 29) 5 192
      = Outcome.assertionFailed :=
  ⟨by decide, by decide, rfl⟩

/-- C11 (amended): when the drawn public exponent `e` is not coprime to
`phi = (p-1)*(q-1)`, key-pair building does not draw a new `e`: `generateKeyPair`
of multiple.cpp (for `p, q ≥ 2`) fails at `assert(ed == 1)` whatever the inverse
computation returned, and `main` of single.cpp fails at one of its two
assertions on `e`. -/
theorem C11_not_coprime_fails_assertion :
    (∀ (DIGIT_BITS : Nat) (genPrime : Nat → Nat → Nat) (inverse : Nat → Nat → Nat)
        (fuel bits q k : Nat),
      drawDistinct genPrime (bits / DIGIT_BITS) (genPrime (bits / DIGIT_BITS) 0) fuel 1
        = some (q, k) →
      2 ≤ genPrime (bits / DIGIT_BITS) 0 → 2 ≤ q →
      Nat.gcd (genPrime (bits / DIGIT_BITS) k)
        ((genPrime (bits / DIGIT_BITS) 0 - 1) * (q - 1)) ≠ 1 →
      generateKeyPair DIGIT_BITS genPrime inverse fuel bits = Outcome.assertionFailed) ∧
    (∀ p q e : Nat, 1 ≤ p → p < Single.W64 → 1 ≤ q → q < Single.W64 →
      Nat.gcd e ((p - 1) * (q - 1)) ≠ 1 → Single.mainPrivateKey p q e = none) :=
  ⟨generateKeyPair_not_coprime, Single.mainPrivateKey_not_coprime⟩

theorem C11_not_coprime_fails_assertion_witness :
    ((drawDistinct (fun _ k => [11, 13, 5, 7].getD k 0) (192 / 32) 11 5 1 = some (13, 2) ∧
        2 ≤ 11 ∧ 2 ≤ 13 ∧ Nat.gcd 5 ((11 - 1) * (13 - 1)) ≠ 1) ∧
      generateKeyPair 32 (fun _ k => [11, 13, 5, 7].getD k 0) Nat.gcd 5 192
        = Outcome.assertionFailed) ∧
    ((1 ≤ 283 ∧ 283 < Single.W64 ∧ 1 ≤ 1543 ∧ 1543 < Single.W64 ∧
        Nat.gcd 257 ((283 - 1) * (1543 - 1)) ≠ 1) ∧
      Single.mainPrivateKey 283 1543 257 = none) :=
  ⟨⟨⟨rfl, by decide, by decide, by decide⟩,
    C11_not_coprime_fails_assertion.1 32 (fun _ k => [11, 13, 5, 7].getD k 0) Nat.gcd 5 192
      13 2 rfl (by decide) (by decide) (by decide)⟩,
   ⟨⟨by decide, by norm_num [Single.W64], by decide, by norm_num [Single.W64], by decide⟩,
    C11_not_coprime_fails_assertion.2 283 1543 257 (by decide) (by norm_num [Single.W64])
      (by decide) (by norm_num [Single.W64]) (by decide)⟩⟩

end Multiple

namespace Single

/-- Under the invariant of the loop, the value returned by `calculateInverse` is
at most `v`: it is the final `u1`, or `v - u1`. -/
theorem calculateInverseLoop_le (v : Nat) (hv : v < W64) :
    ∀ v3 u1 u3 v1 odd, u1 ≤ v → v1 ≤ v → u1 * v3 + v1 * u3 = v →
      calculateInverseLoop v u1 u3 v1 v3 odd ≤ v := by
  intro v3
  induction v3 using Nat.strong_induction_on with
  | _ v3 ih =>
    intro u1 u3 v1 odd hu1 hv1 hlin
    by_cases h3 : v3 = 0
    · subst h3
      rw [calculateInverseLoop_zero]
      cases odd
      · simpa using hu1
      · simp only [if_true, sub64_of_le hu1 hv]
        exact Nat.sub_le _ _
    · obtain ⟨hlin', hle⟩ := inverse_step_linear hlin h3
      have hw : (u3 / v3 * v1) % W64 = u3 / v3 * v1 := Nat.mod_eq_of_lt (by omega)
      have ht : (u1 + u3 / v3 * v1) % W64 = u1 + u3 / v3 * v1 := Nat.mod_eq_of_lt (by omega)
      rw [calculateInverseLoop_step _ _ _ _ _ _ h3, hw, ht]
      exact ih (u3 % v3) (Nat.mod_lt _ (Nat.pos_of_ne_zero h3)) v1 v3 _ (!odd) hv1 hle hlin'

theorem calculateInverse_le (u v : Nat) (hv : v < W64) (hv1 : 1 ≤ v) :
    calculateInverse u v ≤ v :=
  calculateInverseLoop_le v hv v 1 u 0 false hv1 (Nat.zero_le _) (by ring)

theorem calculateInverse_canonical (u v : Nat) (hv : v < W64) (hv2 : 2 ≤ v)
    (hgcd : Nat.gcd u v = 1) :
    1 ≤ calculateInverse u v ∧ calculateInverse u v ≤ v - 1 := by
  have hinv := calculateInverse_spec u v hv hv2 hgcd
  have hle := calculateInverse_le u v hv (by omega)
  have h0 : calculateInverse u v ≠ 0 := by
    intro h
    rw [h, Nat.mul_zero, Nat.zero_mod] at hinv
    exact absurd hinv (by norm_num)
  have hne : calculateInverse u v ≠ v := by
    intro h
    rw [h, Nat.mul_mod_left] at hinv
    exact absurd hinv (by norm_num)
  omega

/-- C21: for all 64-bit `u` and `v` with `v ≥ 2` and `gcd(u, v) = 1`, the result
of `calculateInverse u v` is the canonical representative of the inverse:
`1 ≤ calculateInverse u v ≤ v - 1`. -/
theorem C21_calculateInverse_canonical (u v : Nat) (_hu : u < W64) (hv : v < W64)
    (hv2 : 2 ≤ v) (hgcd : Nat.gcd u v = 1) :
    1 ≤ calculateInverse u v ∧ calculateInverse u v ≤ v - 1 :=
  calculateInverse_canonical u v hv hv2 hgcd

theorem C21_calculateInverse_canonical_witness :
    (65537 < W64 ∧ 4294836224 < W64 ∧ 2 ≤ 4294836224 ∧ Nat.gcd 65537 4294836224 = 1) ∧
    (1 ≤ calculateInverse 65537 4294836224 ∧
      calculateInverse 65537 4294836224 ≤ 4294836224 - 1) :=
  ⟨⟨by norm_num [W64], by norm_num [W64], by norm_num, by norm_num⟩,
   C21_calculateInverse_canonical 65537 4294836224 (by norm_num [W64]) (by norm_num [W64])
     (by norm_num) (by norm_num)⟩

end Single
